import Mathlib

/-!
Verification of the company-graph data layer: a shallow embedding of the
slug derivation, the SQLAlchemy CRUD layer (crud.py and the legacy filter
module) and the Neo4j service layer (app/services/companies.py), together
with theorems about identity allocation, tag usage counting, profile
propagation, filtering and deletion.
-/

set_option maxHeartbeats 1600000

namespace Slug

/-- A character admitted verbatim by the slug regex class `[a-z0-9]`. -/
def isSlugChar (c : Char) : Bool :=
  (97 ≤ c.toNat && c.toNat ≤ 122) || (48 ≤ c.toNat && c.toNat ≤ 57)

/-- ASCII behaviour of Python `str.lower` on one character. -/
def pyLower (c : Char) : Char :=
  if 65 ≤ c.toNat && c.toNat ≤ 90 then Char.ofNat (c.toNat + 32) else c

/-- The substitution `re.sub(r'[^a-z0-9]+', '-', s)`: every maximal run of
characters outside `[a-z0-9]` becomes one hyphen.  The flag records whether
the previous character belonged to such a run already replaced. -/
def collapseAux : Bool → List Char → List Char
  | _, [] => []
  | inRun, c :: rest =>
    if isSlugChar c then c :: collapseAux false rest
    else if inRun then collapseAux true rest
    else '-' :: collapseAux true rest

/-- Remove every trailing hyphen (the right half of `.strip('-')`). -/
def dropTrailingHyphens : List Char → List Char
  | [] => []
  | c :: rest =>
    if (dropTrailingHyphens rest).isEmpty && c == '-' then []
    else c :: dropTrailingHyphens rest

/-- Python `.strip('-')`: remove leading and trailing hyphens. -/
def stripHyphens (l : List Char) : List Char :=
  dropTrailingHyphens (l.dropWhile (fun c => c == '-'))

/-- `create_slug` from crud.py / app/services/companies.py:
`re.sub(r'[^a-z0-9]+', '-', name.lower()).strip('-')`. -/
def create_slug (s : List Char) : List Char :=
  stripHyphens (collapseAux false (s.map pyLower))

/-- String-level wrapper of `create_slug`. -/
def create_slug_str (s : String) : String :=
  String.mk (create_slug s.data)

theorem dropWhile_length_le (p : Char → Bool) :
    ∀ l : List Char, (l.dropWhile p).length ≤ l.length := by
  intro l
  induction l with
  | nil => simp
  | cons c rest ih =>
    by_cases h : p c
    · simpa [List.dropWhile_cons, h] using Nat.le_succ_of_le ih
    · simp [List.dropWhile_cons, h]

/-- Specification-side decomposition: the maximal runs of `[a-z0-9]`
characters of a list, in order. -/
def alnumRuns : List Char → List (List Char)
  | [] => []
  | c :: rest =>
    if isSlugChar c then
      (c :: rest.takeWhile isSlugChar) :: alnumRuns (rest.dropWhile isSlugChar)
    else alnumRuns rest
termination_by l => l.length
decreasing_by
  · exact Nat.lt_succ_of_le (dropWhile_length_le _ _)
  · simp

/-- Join runs with exactly one hyphen between consecutive runs and no
hyphen at either end. -/
def joinHyphen : List (List Char) → List Char
  | [] => []
  | [r] => r
  | r :: rs => r ++ '-' :: joinHyphen rs

def startsSlug : List Char → Bool
  | [] => true
  | c :: _ => isSlugChar c

def endsSlug : List Char → Bool
  | [] => false
  | [c] => isSlugChar c
  | _ :: rest => endsSlug rest

def leadMark (l : List Char) : List Char :=
  if startsSlug l then [] else ['-']

def trailMark (l : List Char) : List Char :=
  if l.any isSlugChar then (if endsSlug l then [] else ['-']) else []

def joinRuns (l : List Char) : List Char :=
  joinHyphen (alnumRuns l) ++ trailMark l

def noDoubleHyphen : List Char → Bool
  | [] => true
  | [_] => true
  | a :: b :: rest => !(a == '-' && b == '-') && noDoubleHyphen (b :: rest)

def headNotHyphen : List Char → Bool
  | [] => true
  | c :: _ => !(c == '-')

def lastNotHyphen : List Char → Bool
  | [] => true
  | [c] => !(c == '-')
  | _ :: rest => lastNotHyphen rest

/-- The shape the claim ascribes to slugs: only `[a-z0-9-]` characters,
no two adjacent hyphens, no leading and no trailing hyphen. -/
def slugWellFormed (l : List Char) : Bool :=
  l.all (fun c => isSlugChar c || c == '-') && noDoubleHyphen l &&
    headNotHyphen l && lastNotHyphen l

theorem allSlug_takeWhile (l : List Char) :
    (l.takeWhile isSlugChar).all isSlugChar = true := by
  induction l with
  | nil => simp
  | cons c rest ih =>
    cases h : isSlugChar c
    · simp [List.takeWhile_cons, h]
    · simp [List.takeWhile_cons, h, ih]

theorem dropWhile_head_false (p : Char → Bool) :
    ∀ (l : List Char) (x : Char) (d : List Char), l.dropWhile p = x :: d → p x = false := by
  intro l
  induction l with
  | nil => intro x d h; simp at h
  | cons c rest ih =>
    intro x d h
    cases hc : p c
    · rw [List.dropWhile_cons, if_neg (by simp [hc])] at h
      cases h
      exact hc
    · rw [List.dropWhile_cons, if_pos (by simp [hc])] at h
      exact ih x d h

theorem endsSlug_cons (a : Char) (l : List Char) (h : l ≠ []) :
    endsSlug (a :: l) = endsSlug l := by
  cases l with
  | nil => exact absurd rfl h
  | cons b t => rfl

theorem endsSlug_append (u v : List Char) (h : v ≠ []) :
    endsSlug (u ++ v) = endsSlug v := by
  induction u with
  | nil => rfl
  | cons a u ih =>
    have hne : u ++ v ≠ [] := by simp [h]
    rw [List.cons_append, endsSlug_cons _ _ hne, ih]

theorem endsSlug_of_allSlug :
    ∀ l : List Char, l ≠ [] → l.all isSlugChar = true → endsSlug l = true := by
  intro l
  induction l with
  | nil => intro h; exact absurd rfl h
  | cons c rest ih =>
    intro _ hall
    simp only [List.all_cons, Bool.and_eq_true] at hall
    cases rest with
    | nil => simpa [endsSlug] using hall.1
    | cons b t =>
      rw [endsSlug_cons _ _ (by simp)]
      exact ih (by simp) hall.2

theorem endsSlug_false_of_no_slug :
    ∀ l : List Char, l.any isSlugChar = false → endsSlug l = false := by
  intro l
  induction l with
  | nil => intro _; rfl
  | cons c rest ih =>
    intro h
    simp only [List.any_cons, Bool.or_eq_false_iff] at h
    cases rest with
    | nil => simpa [endsSlug] using h.1
    | cons b t =>
      rw [endsSlug_cons _ _ (by simp)]
      exact ih h.2

theorem collapseAux_append_allSlug (t d : List Char) (h : t.all isSlugChar = true) :
    collapseAux false (t ++ d) = t ++ collapseAux false d := by
  induction t with
  | nil => rfl
  | cons c t ih =>
    simp only [List.all_cons, Bool.and_eq_true] at h
    simp [collapseAux, h.1, ih h.2]

/-- Core structure of the regex substitution: on any input, the collapse
pass is the hyphen-joined maximal alphanumeric runs, with a single boundary
hyphen on either side exactly when the input starts (resp. ends) in a
non-alphanumeric run and contains at least one alphanumeric character. -/
theorem collapse_structure : ∀ (n : Nat) (l : List Char), l.length ≤ n →
    (collapseAux true l = joinRuns l ∧
     collapseAux false l = leadMark l ++ joinRuns l ∧
     (alnumRuns l = [] ↔ l.any isSlugChar = false) ∧
     (∀ r ∈ alnumRuns l, r ≠ [] ∧ r.all isSlugChar = true)) := by
  intro n
  induction n with
  | zero =>
    intro l hl
    have hnil : l = [] := List.eq_nil_of_length_eq_zero (Nat.le_zero.mp hl)
    subst hnil
    exact ⟨by simp [collapseAux, joinRuns, alnumRuns, trailMark, joinHyphen],
      by simp [collapseAux, joinRuns, alnumRuns, trailMark, joinHyphen, leadMark, startsSlug],
      by simp [alnumRuns], by simp [alnumRuns]⟩
  | succ n ih =>
    intro l hl
    cases l with
    | nil =>
      exact ⟨by simp [collapseAux, joinRuns, alnumRuns, trailMark, joinHyphen],
        by simp [collapseAux, joinRuns, alnumRuns, trailMark, joinHyphen, leadMark, startsSlug],
        by simp [alnumRuns], by simp [alnumRuns]⟩
    | cons c rest =>
      have hlen : rest.length ≤ n := Nat.le_of_succ_le_succ (by simpa using hl)
      cases hc : isSlugChar c
      · -- non-alphanumeric head: it joins or opens a collapsed run
        obtain ⟨h1, h2, h3, h4⟩ := ih rest hlen
        have hruns : alnumRuns (c :: rest) = alnumRuns rest := by
          simp [alnumRuns, hc]
        cases hrest : rest with
        | nil =>
          subst hrest
          refine ⟨by simp [collapseAux, hc, joinRuns, alnumRuns, trailMark, joinHyphen], ?_,
            by simp [alnumRuns, hc], by simp [alnumRuns, hc]⟩
          simp [collapseAux, hc, joinRuns, alnumRuns, trailMark, joinHyphen, leadMark,
            startsSlug]
        | cons b t =>
          have hne : rest ≠ [] := by rw [hrest]; simp
          rw [← hrest] at *
          have hjr : joinRuns (c :: rest) = joinRuns rest := by
            unfold joinRuns trailMark
            rw [hruns, endsSlug_cons _ _ hne]
            simp [List.any_cons, hc]
          refine ⟨?_, ?_, ?_, ?_⟩
          · rw [hjr, ← h1]; simp [collapseAux, hc]
          · have hlm : leadMark (c :: rest) = ['-'] := by
              simp [leadMark, startsSlug, hc]
            rw [hjr, hlm, ← h1]; simp [collapseAux, hc]
          · rw [hruns]; simpa [List.any_cons, hc] using h3
          · rw [hruns]; exact h4
      · -- alphanumeric head: it opens the first run
        have htd : rest.takeWhile isSlugChar ++ rest.dropWhile isSlugChar = rest :=
          List.takeWhile_append_dropWhile isSlugChar rest
        have hdlen : (rest.dropWhile isSlugChar).length ≤ n :=
          le_trans (dropWhile_length_le _ _) hlen
        obtain ⟨d1, d2, d3, d4⟩ := ih (rest.dropWhile isSlugChar) hdlen
        have hallt : (rest.takeWhile isSlugChar).all isSlugChar = true := allSlug_takeWhile rest
        have hruns : alnumRuns (c :: rest) =
            (c :: rest.takeWhile isSlugChar) :: alnumRuns (rest.dropWhile isSlugChar) := by
          simp [alnumRuns, hc]
        have hcol : ∀ b : Bool, collapseAux b (c :: rest) =
            c :: (rest.takeWhile isSlugChar ++ collapseAux false (rest.dropWhile isSlugChar)) := by
          intro b
          have : collapseAux false rest =
              rest.takeWhile isSlugChar ++ collapseAux false (rest.dropWhile isSlugChar) := by
            conv_lhs => rw [← htd]
            exact collapseAux_append_allSlug _ _ hallt
          cases b <;> simp [collapseAux, hc, this]
      -- the rest of this branch splits on the dropWhile remainder
        have hgood : ∀ r ∈ alnumRuns (c :: rest), r ≠ [] ∧ r.all isSlugChar = true := by
          rw [hruns]
          intro r hr
          rcases List.mem_cons.mp hr with hr | hr
          · subst hr
            refine ⟨by simp, ?_⟩
            simp [List.all_cons, hc, hallt]
          · exact d4 r hr
        have hanyc : (c :: rest).any isSlugChar = true := by simp [List.any_cons, hc]
        have hiff : (alnumRuns (c :: rest) = [] ↔ (c :: rest).any isSlugChar = false) := by
          rw [hruns, hanyc]; simp
        cases hdc : rest.dropWhile isSlugChar with
        | nil =>
          -- the whole tail is alphanumeric
          have hrt : rest = rest.takeWhile isSlugChar := by
            have h0 := htd
            rw [hdc] at h0
            simpa using h0.symm
          have hendsl : endsSlug (c :: rest) = true := by
            refine endsSlug_of_allSlug _ (by simp) ?_
            simp only [List.all_cons, Bool.and_eq_true]
            exact ⟨hc, by rw [hrt]; exact hallt⟩
          have hjoin : joinRuns (c :: rest) = c :: rest.takeWhile isSlugChar := by
            unfold joinRuns trailMark
            rw [hruns, hdc, hendsl, hanyc]
            simp [alnumRuns, joinHyphen]
          refine ⟨?_, ?_, hiff, hgood⟩
          · rw [hcol, hdc, hjoin]; simp [collapseAux]
          · rw [hcol, hdc, hjoin]
            simp [leadMark, startsSlug, hc, collapseAux]
        | cons x d' =>
          have hx : isSlugChar x = false := dropWhile_head_false _ rest x d' hdc
          have hdd : rest.dropWhile isSlugChar ≠ [] := by rw [hdc]; simp
          have hrestne : rest ≠ [] := by
            intro hemp
            rw [hemp] at hdc; simp at hdc
          have hends : endsSlug (c :: rest) = endsSlug (rest.dropWhile isSlugChar) := by
            rw [endsSlug_cons _ _ hrestne]
            conv_lhs => rw [← htd]
            exact endsSlug_append _ _ hdd
          have hlead : leadMark (rest.dropWhile isSlugChar) = ['-'] := by
            rw [hdc]; simp [leadMark, startsSlug, hx]
          rw [hdc] at hlead
          have hfalse : collapseAux false (rest.dropWhile isSlugChar) =
              '-' :: joinRuns (rest.dropWhile isSlugChar) := by
            rw [d2]
            rw [hdc] at *
            rw [hlead]
            rfl
          cases hrd : alnumRuns (rest.dropWhile isSlugChar) with
          | nil =>
            have hanyd : (rest.dropWhile isSlugChar).any isSlugChar = false := d3.mp hrd
            have hendd : endsSlug (rest.dropWhile isSlugChar) = false :=
              endsSlug_false_of_no_slug _ hanyd
            have hjrd : joinRuns (rest.dropWhile isSlugChar) = [] := by
              unfold joinRuns trailMark
              rw [hrd, hanyd]
              simp [joinHyphen]
            have hjoin : joinRuns (c :: rest) = (c :: rest.takeWhile isSlugChar) ++ ['-'] := by
              unfold joinRuns trailMark
              rw [hruns, hrd, hanyc, hends, hendd]
              simp [joinHyphen]
            refine ⟨?_, ?_, hiff, hgood⟩
            · rw [hcol, hfalse, hjrd, hjoin]; simp
            · rw [hcol, hfalse, hjrd, hjoin]
              simp [leadMark, startsSlug, hc]
          | cons r rs =>
            have hanyd : (rest.dropWhile isSlugChar).any isSlugChar = true := by
              cases hv : (rest.dropWhile isSlugChar).any isSlugChar
              · exact absurd (d3.mpr hv) (by rw [hrd]; simp)
              · rfl
            have hjoin : joinRuns (c :: rest) =
                (c :: rest.takeWhile isSlugChar) ++
                  '-' :: joinRuns (rest.dropWhile isSlugChar) := by
              unfold joinRuns trailMark
              rw [hruns, hrd, hanyc, hends, hanyd]
              simp [joinHyphen]
            refine ⟨?_, ?_, hiff, hgood⟩
            · rw [hcol, hfalse, hjoin]; simp
            · rw [hcol, hfalse, hjoin]
              simp [leadMark, startsSlug, hc]

theorem runs_good (l : List Char) :
    ∀ r ∈ alnumRuns l, r ≠ [] ∧ r.all isSlugChar = true :=
  (collapse_structure l.length l le_rfl).2.2.2

theorem lastNotHyphen_cons (a : Char) (l : List Char) (h : l ≠ []) :
    lastNotHyphen (a :: l) = lastNotHyphen l := by
  cases l with
  | nil => exact absurd rfl h
  | cons b t => rfl

theorem lastNotHyphen_append (u v : List Char) (h : v ≠ []) :
    lastNotHyphen (u ++ v) = lastNotHyphen v := by
  induction u with
  | nil => rfl
  | cons a u ih =>
    have hne : u ++ v ≠ [] := by simp [h]
    rw [List.cons_append, lastNotHyphen_cons _ _ hne, ih]

theorem slug_not_hyphen (c : Char) (h : isSlugChar c = true) : (c == '-') = false := by
  cases hd : c == '-'
  · rfl
  · have : c = '-' := by simpa using hd
    subst this
    simp [isSlugChar] at h

theorem lastNot_of_allSlug :
    ∀ l : List Char, l.all isSlugChar = true → lastNotHyphen l = true := by
  intro l
  induction l with
  | nil => intro _; rfl
  | cons c rest ih =>
    intro h
    simp only [List.all_cons, Bool.and_eq_true] at h
    cases rest with
    | nil => simpa [lastNotHyphen] using slug_not_hyphen c h.1
    | cons b t =>
      rw [lastNotHyphen_cons _ _ (by simp)]
      exact ih h.2

theorem joinHyphen_ne_nil (r : List Char) (rs : List (List Char)) (hr : r ≠ []) :
    joinHyphen (r :: rs) ≠ [] := by
  cases rs with
  | nil => simpa [joinHyphen] using hr
  | cons r2 rs' =>
    simp only [joinHyphen]
    simp [hr]

theorem headNot_joinHyphen (rs : List (List Char))
    (h : ∀ r ∈ rs, r ≠ [] ∧ r.all isSlugChar = true) :
    headNotHyphen (joinHyphen rs) = true := by
  cases rs with
  | nil => rfl
  | cons r rs' =>
    obtain ⟨hne, hall⟩ := h r (by simp)
    obtain ⟨a, r', rfl⟩ := List.exists_cons_of_ne_nil hne
    have ha : isSlugChar a = true := by
      simp only [List.all_cons, Bool.and_eq_true] at hall
      exact hall.1
    cases rs' with
    | nil => simpa [joinHyphen, headNotHyphen] using slug_not_hyphen a ha
    | cons r2 rs'' =>
      simp only [joinHyphen, List.cons_append]
      simpa [headNotHyphen] using slug_not_hyphen a ha

theorem lastNot_joinHyphen (rs : List (List Char))
    (h : ∀ r ∈ rs, r ≠ [] ∧ r.all isSlugChar = true) :
    lastNotHyphen (joinHyphen rs) = true := by
  induction rs with
  | nil => rfl
  | cons r rs' ih =>
    obtain ⟨hne, hall⟩ := h r (by simp)
    cases rs' with
    | nil => simpa [joinHyphen] using lastNot_of_allSlug r hall
    | cons r2 rs'' =>
      have h2 : ∀ q ∈ r2 :: rs'', q ≠ [] ∧ q.all isSlugChar = true := by
        intro q hq
        exact h q (by simp [hq])
      have hne2 : joinHyphen (r2 :: rs'') ≠ [] :=
        joinHyphen_ne_nil r2 rs'' (h2 r2 (by simp)).1
      have : joinHyphen (r :: r2 :: rs'') = r ++ '-' :: joinHyphen (r2 :: rs'') := rfl
      rw [this, lastNotHyphen_append _ _ (by simp), lastNotHyphen_cons _ _ hne2]
      exact ih h2

theorem joinHyphen_all (rs : List (List Char))
    (h : ∀ r ∈ rs, r.all isSlugChar = true) :
    (joinHyphen rs).all (fun c => isSlugChar c || c == '-') = true := by
  induction rs with
  | nil => rfl
  | cons r rs' ih =>
    have hr := h r (by simp)
    have hr' : r.all (fun c => isSlugChar c || c == '-') = true := by
      rw [List.all_eq_true] at hr ⊢
      intro c hcm
      simp [hr c hcm]
    cases rs' with
    | nil => simpa [joinHyphen] using hr'
    | cons r2 rs'' =>
      have : joinHyphen (r :: r2 :: rs'') = r ++ '-' :: joinHyphen (r2 :: rs'') := rfl
      rw [this]
      simp only [List.all_append, List.all_cons, Bool.and_eq_true]
      refine ⟨hr', by simp, ?_⟩
      exact ih (fun q hq => h q (by simp [hq]))

theorem noDouble_cons_char (a : Char) (v : List Char) :
    noDoubleHyphen (a :: v) = true ↔
      (noDoubleHyphen v = true ∧ ((a == '-') = false ∨ headNotHyphen v = true)) := by
  cases v with
  | nil => simp [noDoubleHyphen, headNotHyphen]
  | cons b w =>
    cases ha : a == '-' <;> cases hb : b == '-' <;>
      simp [noDoubleHyphen, headNotHyphen, ha, hb]

theorem noDouble_append (u v : List Char) (hu : noDoubleHyphen u = true)
    (hv : noDoubleHyphen v = true)
    (hj : lastNotHyphen u = true ∨ headNotHyphen v = true) :
    noDoubleHyphen (u ++ v) = true := by
  induction u with
  | nil => exact hv
  | cons a u ih =>
    cases u with
    | nil =>
      rw [List.cons_append, List.nil_append, noDouble_cons_char]
      refine ⟨hv, ?_⟩
      rcases hj with h | h
      · exact Or.inl (by simpa [lastNotHyphen] using h)
      · exact Or.inr h
    | cons b u' =>
      have hu' : noDoubleHyphen (b :: u') = true := by
        simp only [noDoubleHyphen, Bool.and_eq_true] at hu
        exact hu.2
      have hj' : lastNotHyphen (b :: u') = true ∨ headNotHyphen v = true := by
        rcases hj with h | h
        · exact Or.inl (by rwa [lastNotHyphen_cons _ _ (by simp)] at h)
        · exact Or.inr h
      have hrec := ih hu' hj'
      have hab : (a == '-' && b == '-') = false := by
        simp only [noDoubleHyphen, Bool.and_eq_true, Bool.not_eq_true'] at hu
        exact hu.1
      simpa [noDoubleHyphen, hab] using hrec

theorem noDouble_of_allSlug :
    ∀ l : List Char, l.all isSlugChar = true → noDoubleHyphen l = true := by
  intro l
  induction l with
  | nil => intro _; rfl
  | cons c rest ih =>
    intro h
    simp only [List.all_cons, Bool.and_eq_true] at h
    rw [noDouble_cons_char]
    exact ⟨ih h.2, Or.inl (slug_not_hyphen c h.1)⟩

theorem noDouble_joinHyphen (rs : List (List Char))
    (h : ∀ r ∈ rs, r ≠ [] ∧ r.all isSlugChar = true) :
    noDoubleHyphen (joinHyphen rs) = true := by
  induction rs with
  | nil => rfl
  | cons r rs' ih =>
    obtain ⟨hne, hall⟩ := h r (by simp)
    cases rs' with
    | nil => simpa [joinHyphen] using noDouble_of_allSlug r hall
    | cons r2 rs'' =>
      have h2 : ∀ q ∈ r2 :: rs'', q ≠ [] ∧ q.all isSlugChar = true := by
        intro q hq
        exact h q (by simp [hq])
      have hstep : joinHyphen (r :: r2 :: rs'') = r ++ '-' :: joinHyphen (r2 :: rs'') := rfl
      rw [hstep]
      refine noDouble_append _ _ (noDouble_of_allSlug r hall) ?_ (Or.inl (lastNot_of_allSlug r hall))
      rw [noDouble_cons_char]
      exact ⟨ih h2, Or.inr (headNot_joinHyphen _ h2)⟩

theorem slugWellFormed_joinHyphen (rs : List (List Char))
    (h : ∀ r ∈ rs, r ≠ [] ∧ r.all isSlugChar = true) :
    slugWellFormed (joinHyphen rs) = true := by
  unfold slugWellFormed
  simp only [Bool.and_eq_true]
  exact ⟨⟨⟨joinHyphen_all rs (fun r hr => (h r hr).2), noDouble_joinHyphen rs h⟩,
    headNot_joinHyphen rs h⟩, lastNot_joinHyphen rs h⟩

theorem dropTrailing_append_hyphen (y : List Char) :
    dropTrailingHyphens (y ++ ['-']) = dropTrailingHyphens y := by
  induction y with
  | nil => simp [dropTrailingHyphens]
  | cons c y ih =>
    rw [List.cons_append]
    conv_lhs => rw [dropTrailingHyphens]
    conv_rhs => rw [dropTrailingHyphens]
    rw [ih]

theorem dropTrailing_fix (y : List Char) (h : lastNotHyphen y = true) :
    dropTrailingHyphens y = y := by
  induction y with
  | nil => rfl
  | cons c y ih =>
    cases y with
    | nil =>
      have hc : (c == '-') = false := by simpa [lastNotHyphen] using h
      simp [dropTrailingHyphens, hc]
    | cons b t =>
      have h' : lastNotHyphen (b :: t) = true := by
        rwa [lastNotHyphen_cons _ _ (by simp)] at h
      have hr := ih h'
      conv_lhs => rw [dropTrailingHyphens]
      rw [hr]
      simp

/-- `create_slug` is exactly: lowercase, take the maximal `[a-z0-9]` runs,
join them with single hyphens. -/
theorem create_slug_eq (s : List Char) :
    create_slug s = joinHyphen (alnumRuns (s.map pyLower)) := by
  obtain ⟨-, h2, h3, h4⟩ :=
    collapse_structure (s.map pyLower).length (s.map pyLower) le_rfl
  unfold create_slug stripHyphens
  rw [h2]
  unfold joinRuns
  cases hruns : alnumRuns (s.map pyLower) with
  | nil =>
    have hany := h3.mp hruns
    have htm : trailMark (s.map pyLower) = [] := by simp [trailMark, hany]
    rw [htm]
    unfold leadMark
    by_cases hs : startsSlug (s.map pyLower) = true
    · simp [hs, joinHyphen, dropTrailingHyphens]
    · simp [hs, joinHyphen, dropTrailingHyphens]
  | cons r rs =>
    have hgood : ∀ q ∈ (r :: rs), q ≠ [] ∧ q.all isSlugChar = true := by
      rw [← hruns]; exact h4
    obtain ⟨hne, hall⟩ := hgood r (by simp)
    obtain ⟨a, r', rfl⟩ := List.exists_cons_of_ne_nil hne
    have ha : isSlugChar a = true := by
      simp only [List.all_cons, Bool.and_eq_true] at hall
      exact hall.1
    have hz : ∃ z, joinHyphen ((a :: r') :: rs) = a :: z := by
      cases rs with
      | nil => exact ⟨r', rfl⟩
      | cons r2 rs' => exact ⟨r' ++ '-' :: joinHyphen (r2 :: rs'), rfl⟩
    obtain ⟨z, hz⟩ := hz
    rw [hz]
    have hna : ((a : Char) == '-') = false := slug_not_hyphen a ha
    have hstep :
        List.dropWhile (fun c => c == '-')
            (leadMark (s.map pyLower) ++ (a :: z ++ trailMark (s.map pyLower))) =
          a :: z ++ trailMark (s.map pyLower) := by
      unfold leadMark
      by_cases hs : startsSlug (s.map pyLower) = true
      · simp [hs, List.dropWhile_cons, hna]
      · simp [hs, List.dropWhile_cons, hna]
    rw [hstep]
    have hlast : lastNotHyphen (a :: z) = true := by
      rw [← hz]
      exact lastNot_joinHyphen _ hgood
    have htm : trailMark (s.map pyLower) = [] ∨ trailMark (s.map pyLower) = ['-'] := by
      unfold trailMark
      by_cases h1 : (s.map pyLower).any isSlugChar = true
      · by_cases h2 : endsSlug (s.map pyLower) = true
        · simp [h1, h2]
        · simp [h1, h2]
      · simp [h1]
    rcases htm with htm | htm
    · rw [htm]
      simpa using dropTrailing_fix _ hlast
    · rw [htm, dropTrailing_append_hyphen]
      exact dropTrailing_fix _ hlast

theorem takeWhile_all_self (p : Char → Bool) :
    ∀ l : List Char, l.all p = true → l.takeWhile p = l := by
  intro l
  induction l with
  | nil => intro _; rfl
  | cons c t ih =>
    intro h
    simp only [List.all_cons, Bool.and_eq_true] at h
    simp [List.takeWhile_cons, h.1, ih h.2]

theorem dropWhile_all_nil (p : Char → Bool) :
    ∀ l : List Char, l.all p = true → l.dropWhile p = [] := by
  intro l
  induction l with
  | nil => intro _; rfl
  | cons c t ih =>
    intro h
    simp only [List.all_cons, Bool.and_eq_true] at h
    simp [List.dropWhile_cons, h.1, ih h.2]

theorem takeWhile_append_all (p : Char → Bool) (t d : List Char) (h : t.all p = true) :
    (t ++ d).takeWhile p = t ++ d.takeWhile p := by
  induction t with
  | nil => rfl
  | cons c t ih =>
    simp only [List.all_cons, Bool.and_eq_true] at h
    simp [List.takeWhile_cons, h.1, ih h.2]

theorem dropWhile_append_all (p : Char → Bool) (t d : List Char) (h : t.all p = true) :
    (t ++ d).dropWhile p = d.dropWhile p := by
  induction t with
  | nil => rfl
  | cons c t ih =>
    simp only [List.all_cons, Bool.and_eq_true] at h
    simp [List.dropWhile_cons, h.1, ih h.2]

/-- Extracting runs is a retraction of joining runs with hyphens. -/
theorem alnumRuns_joinHyphen : ∀ rs : List (List Char),
    (∀ r ∈ rs, r ≠ [] ∧ r.all isSlugChar = true) → alnumRuns (joinHyphen rs) = rs := by
  intro rs
  induction rs with
  | nil => intro _; simp [joinHyphen, alnumRuns]
  | cons r rs' ih =>
    intro h
    obtain ⟨hne, hall⟩ := h r (by simp)
    obtain ⟨a, r', rfl⟩ := List.exists_cons_of_ne_nil hne
    have ha : isSlugChar a = true := by
      simp only [List.all_cons, Bool.and_eq_true] at hall
      exact hall.1
    have hr' : r'.all isSlugChar = true := by
      simp only [List.all_cons, Bool.and_eq_true] at hall
      exact hall.2
    cases rs' with
    | nil =>
      show alnumRuns (a :: r') = [a :: r']
      simp [alnumRuns, ha, takeWhile_all_self _ _ hr', dropWhile_all_nil _ _ hr']
    | cons r2 rs'' =>
      have h2 : ∀ q ∈ r2 :: rs'', q ≠ [] ∧ q.all isSlugChar = true := by
        intro q hq
        exact h q (by simp [hq])
      have hstep : joinHyphen ((a :: r') :: r2 :: rs'') =
          a :: (r' ++ '-' :: joinHyphen (r2 :: rs'')) := rfl
      rw [hstep]
      have htake : (r' ++ '-' :: joinHyphen (r2 :: rs'')).takeWhile isSlugChar = r' := by
        rw [takeWhile_append_all _ _ _ hr']
        simp [List.takeWhile_cons, isSlugChar]
      have hdrop : (r' ++ '-' :: joinHyphen (r2 :: rs'')).dropWhile isSlugChar =
          '-' :: joinHyphen (r2 :: rs'') := by
        rw [dropWhile_append_all _ _ _ hr']
        simp [List.dropWhile_cons, isSlugChar]
      have hdash : alnumRuns ('-' :: joinHyphen (r2 :: rs'')) = alnumRuns (joinHyphen (r2 :: rs'')) := by
        simp [alnumRuns, isSlugChar]
      simp only [alnumRuns, ha, if_pos]
      rw [htake, hdrop, hdash, ih h2]

theorem pyLower_fix (c : Char) (h : (isSlugChar c || c == '-') = true) : pyLower c = c := by
  unfold pyLower
  simp only [Bool.or_eq_true] at h
  rcases h with h | h
  · simp only [isSlugChar, Bool.or_eq_true, Bool.and_eq_true, decide_eq_true_eq] at h
    rcases h with ⟨h1, h2⟩ | ⟨h1, h2⟩ <;> rw [if_neg (by simp; omega)]
  · have hc : c = '-' := by simpa using h
    subst hc
    rw [if_neg (by simp)]

theorem map_pyLower_fix :
    ∀ l : List Char, l.all (fun c => isSlugChar c || c == '-') = true → l.map pyLower = l := by
  intro l
  induction l with
  | nil => intro _; rfl
  | cons c t ih =>
    intro h
    simp only [List.all_cons, Bool.and_eq_true] at h
    simp [pyLower_fix c h.1, ih h.2]

end Slug

/-- C3: `create_slug` is idempotent; its output consists only of lowercase
ASCII alphanumerics and hyphens, with no two adjacent hyphens and no
leading or trailing hyphen; and it equals the maximal `[a-z0-9]` runs of
the lowercased input joined by single hyphens (every maximal run of other
characters collapses to one separating hyphen, boundary runs vanish). -/
theorem C3_create_slug_spec (s : String) :
    Slug.create_slug_str (Slug.create_slug_str s) = Slug.create_slug_str s ∧
    Slug.slugWellFormed (Slug.create_slug_str s).data = true ∧
    (Slug.create_slug_str s).data =
      Slug.joinHyphen (Slug.alnumRuns (s.data.map Slug.pyLower)) := by
  have hruns := Slug.runs_good (s.data.map Slug.pyLower)
  have heq : (Slug.create_slug_str s).data =
      Slug.joinHyphen (Slug.alnumRuns (s.data.map Slug.pyLower)) :=
    Slug.create_slug_eq s.data
  have hwf : Slug.slugWellFormed (Slug.create_slug_str s).data = true := by
    rw [heq]
    exact Slug.slugWellFormed_joinHyphen _ hruns
  refine ⟨?_, hwf, heq⟩
  show String.mk (Slug.create_slug (Slug.create_slug_str s).data) = Slug.create_slug_str s
  have hall : (Slug.create_slug_str s).data.all
      (fun c => Slug.isSlugChar c || c == '-') = true := by
    have h := hwf
    unfold Slug.slugWellFormed at h
    simp only [Bool.and_eq_true] at h
    exact h.1.1.1
  have hfix : Slug.create_slug (Slug.create_slug_str s).data = (Slug.create_slug_str s).data := by
    rw [Slug.create_slug_eq, Slug.map_pyLower_fix _ hall, heq,
      Slug.alnumRuns_joinHyphen _ hruns, ← heq]
  rw [hfix]

example : Slug.create_slug_str "Kili Technology!!" = "kili-technology" := by decide
example : Slug.create_slug_str "  --A  b--C-- " = "a-b-c" := by decide

namespace Py

def isPySpace (c : Char) : Bool :=
  c == ' ' || c == '\t' || c == '\n' || c == '\r'

def dropTrailingSpaces : List Char → List Char
  | [] => []
  | c :: rest =>
    if (dropTrailingSpaces rest).isEmpty && isPySpace c then []
    else c :: dropTrailingSpaces rest

/-- Python `str.strip()` (whitespace at both ends). -/
def pyStrip (s : String) : String :=
  String.mk (dropTrailingSpaces (s.data.dropWhile isPySpace))

end Py

namespace Crud

/-!
Shallow embedding of the SQLAlchemy layer (src/crud.py, src/database.py,
and the filter from src/legacy/crud_sqlalchemy_legacy.py).  Rows are
records; association tables are id lists on the owning row; autoincrement
primary keys are modelled as `max existing id + 1`.
-/

structure STag where
  id : Nat
  name : String
  category : String
  color : String
  usage_count : Int
deriving DecidableEq

structure SPerson where
  id : Nat
  name : String
deriving DecidableEq

structure SFounder where
  id : Nat
  name : String
  title : Option String
  background_type : Option String
  background : Option String
  education_institution : Option String
  education_degree : Option String
  education_field : Option String
  education_year : Option Int
  professional_company : Option String
  professional_position : Option String
  professional_duration : Option String
  professional_description : Option String
  company_id : Nat
  person_id : Option Nat
  tags : List Nat
deriving DecidableEq

structure SInvestor where
  id : Nat
  name : String
  type : Option String
deriving DecidableEq

structure SCompany where
  id : Nat
  name : String
  slug : String
  website : Option String
  description : Option String
  sector : Option String
  location : Option String
  high_profile : Int
  remuneration : Int
  work_intensity : String
  company_size : String
  founded_year : Option Int
  last_funding : Option String
  investors : List Nat
  tags : List Nat
deriving DecidableEq

structure SRelation where
  parent_id : Nat
  child_id : Nat
  relation_type : String
deriving DecidableEq

structure SDB where
  companies : List SCompany
  founders : List SFounder
  persons : List SPerson
  tags : List STag
  investors : List SInvestor
  relations : List SRelation
deriving DecidableEq

/-! Input payloads (src/models.py).  Enum fields are carried as their
string values; nested background objects keep their optional fields. -/

structure EducationBackground where
  institution : String
  degree : Option String
  field : Option String
  year : Option Int
deriving DecidableEq

structure ProfessionalBackground where
  company : String
  position : Option String
  duration : Option String
  description : Option String
deriving DecidableEq

structure FounderCreate where
  person_id : Option Nat
  name : String
  title : Option String
  background_type : Option String
  education_background : Option EducationBackground
  professional_background : Option ProfessionalBackground
  education_tags : List String
  professional_tags : List String
  background : Option String
deriving DecidableEq

structure CompanyRelationCreate where
  relation_type : String
  related_company_name : String
deriving DecidableEq

structure CompanyCreate where
  name : String
  website : Option String
  description : Option String
  sector : Option String
  location : Option String
  high_profile : Int
  remuneration : Int
  work_intensity : String
  company_size : String
  founded_year : Option Int
  last_funding : Option String
  founders : List FounderCreate
  investors : List String
  relations : List CompanyRelationCreate
  secteur_tags : List String
  core_business_tags : List String
deriving DecidableEq

/-- Autoincrement/`max+1` id source. -/
def nextId (ids : List Nat) : Nat := ids.foldr max 0 + 1

def nextTagId (db : SDB) : Nat := nextId (db.tags.map STag.id)
def nextFounderId (db : SDB) : Nat := nextId (db.founders.map SFounder.id)
def nextPersonId (db : SDB) : Nat := nextId (db.persons.map SPerson.id)

def get_tag_by_name_and_category (db : SDB) (name category : String) : Option STag :=
  db.tags.find? (fun t => t.name == name && t.category == category)

def create_tag (db : SDB) (name category color : String) : STag × SDB :=
  let t : STag := ⟨nextTagId db, name, category, color, 0⟩
  (t, { db with tags := db.tags ++ [t] })

def get_or_create_tag (db : SDB) (name category : String) : STag × SDB :=
  match get_tag_by_name_and_category db name category with
  | some t => (t, db)
  | none => create_tag db name category "#64b5f6"

/-- `update_tag_usage_count`: add `inc` to the tag's counter, floored at 0. -/
def update_tag_usage_count (db : SDB) (tid : Nat) (inc : Int) : SDB :=
  { db with tags := db.tags.map (fun t =>
      if t.id = tid then { t with usage_count := max 0 (t.usage_count + inc) } else t) }

def get_person_by_id (db : SDB) (pid : Nat) : Option SPerson :=
  db.persons.find? (fun p => p.id == pid)

def get_person_by_name (db : SDB) (name : String) : Option SPerson :=
  db.persons.find? (fun p => p.name == name)

def create_person (db : SDB) (name : String) : SPerson × SDB :=
  let p : SPerson := ⟨nextPersonId db, name⟩
  (p, { db with persons := db.persons ++ [p] })

/-- `get_or_create_person`: prefer an explicit (truthy) `person_id`; on a
hit optionally rename the person; otherwise match / create by name; a
falsy name yields no person. -/
def get_or_create_person (db : SDB) (fd : FounderCreate) : Option SPerson × SDB :=
  let byId : Option SPerson :=
    match fd.person_id with
    | some pid => if pid = 0 then none else get_person_by_id db pid
    | none => none
  match byId with
  | some p =>
    if fd.name ≠ "" ∧ p.name ≠ fd.name then
      (some { p with name := fd.name },
       { db with persons := db.persons.map (fun q =>
           if q.id = p.id then { q with name := fd.name } else q) })
    else (some p, db)
  | none =>
    if fd.name = "" then (none, db)
    else
      match get_person_by_name db fd.name with
      | some p => (some p, db)
      | none =>
        let r := create_person db fd.name
        (some r.1, r.2)

def tagCategory (db : SDB) (tid : Nat) : Option String :=
  (db.tags.find? (fun t => t.id == tid)).map STag.category

def founderEduTagIds (db : SDB) (f : SFounder) : List Nat :=
  f.tags.filter (fun tid => tagCategory db tid == some "education")

def founderProTagIds (db : SDB) (f : SFounder) : List Nat :=
  f.tags.filter (fun tid => tagCategory db tid == some "professional")

/-- `propagate_founder_profile`: copy the canonical person-bound fields and
the education/professional tag set from `src` onto every other founder row
with the same `person_id`, and rename the `Person` row. -/
def propagate_founder_profile (db : SDB) (src : SFounder) : SDB :=
  match src.person_id with
  | none => db
  | some pid =>
    if pid = 0 then db
    else
      let db1 := { db with persons := db.persons.map (fun p =>
          if p.id = pid then { p with name := src.name } else p) }
      let eduIds := founderEduTagIds db1 src
      let proIds := founderProTagIds db1 src
      let needed := (db1.tags.filter (fun t =>
          eduIds.contains t.id || proIds.contains t.id)).map STag.id
      { db1 with founders := db1.founders.map (fun f =>
          if f.person_id = some pid ∧ f.id ≠ src.id then
            { f with
              name := src.name
              background_type := src.background_type
              education_institution := src.education_institution
              education_degree := src.education_degree
              education_field := src.education_field
              education_year := src.education_year
              professional_company := src.professional_company
              professional_position := src.professional_position
              professional_duration := src.professional_duration
              professional_description := src.professional_description
              tags := f.tags.filter (fun tid =>
                  !(tagCategory db1 tid == some "education") &&
                  !(tagCategory db1 tid == some "professional")) ++ needed }
          else f) }

/-- One step of the founder-tag loops inside company create/update:
trim the name, skip blanks, resolve-or-create the tag, record the edge,
bump the usage counter. -/
def attach_founder_tag (acc : SDB × List Nat) (raw category : String) : SDB × List Nat :=
  if Py.pyStrip raw = "" then acc
  else
    let r := get_or_create_tag acc.1 (Py.pyStrip raw) category
    (update_tag_usage_count r.2 r.1.id 1, acc.2 ++ [r.1.id])

def attach_founder_tags (db : SDB) (tagIds : List Nat) (names : List String)
    (category : String) : SDB × List Nat :=
  names.foldl (fun a nm => attach_founder_tag a nm category) (db, tagIds)

def build_founder (fd : FounderCreate) (fid cid : Nat) (pid : Option Nat)
    (tagIds : List Nat) : SFounder :=
  { id := fid
    name := fd.name
    title := fd.title
    background_type := fd.background_type
    background := fd.background
    education_institution := fd.education_background.map (fun b => b.institution)
    education_degree := fd.education_background.bind (fun b => b.degree)
    education_field := fd.education_background.bind (fun b => b.field)
    education_year := fd.education_background.bind (fun b => b.year)
    professional_company := fd.professional_background.map (fun b => b.company)
    professional_position := fd.professional_background.bind (fun b => b.position)
    professional_duration := fd.professional_background.bind (fun b => b.duration)
    professional_description := fd.professional_background.bind (fun b => b.description)
    company_id := cid
    person_id := pid
    tags := tagIds }

/-- The founder-loop body of `create_company`/`update_company`: resolve the
person, insert the founder row, attach its tags, then propagate when the
row carries a (truthy) person id. -/
def write_founder_record (db : SDB) (fd : FounderCreate) (cid : Nat) : SDB × Nat :=
  let rp := get_or_create_person db fd
  let pid : Option Nat := rp.1.map SPerson.id
  let fid := nextFounderId rp.2
  let re := attach_founder_tags rp.2 [] fd.education_tags "education"
  let rr := attach_founder_tags re.1 re.2 fd.professional_tags "professional"
  let f := build_founder fd fid cid pid rr.2
  let db4 := { rr.1 with founders := rr.1.founders ++ [f] }
  let db5 :=
    match f.person_id with
    | some p => if p = 0 then db4 else propagate_founder_profile db4 f
    | none => db4
  (db5, fid)

def add_investor (db : SDB) (cid : Nat) (nm : String) : SDB :=
  let r : SInvestor × SDB :=
    match db.investors.find? (fun i => i.name == nm) with
    | some i => (i, db)
    | none =>
      let i : SInvestor := ⟨nextId (db.investors.map SInvestor.id), nm, none⟩
      (i, { db with investors := db.investors ++ [i] })
  { r.2 with companies := r.2.companies.map (fun c =>
      if c.id = cid then { c with investors := c.investors ++ [r.1.id] } else c) }

/-- One step of the company-tag loops inside create: unconditional
usage-count bump per non-blank occurrence (this is the behaviour under
test in the tag-attachment claims). -/
def attach_company_tag_create (db : SDB) (cid : Nat) (raw category : String) : SDB :=
  if Py.pyStrip raw = "" then db
  else
    let r := get_or_create_tag db (Py.pyStrip raw) category
    let db2 := { r.2 with companies := r.2.companies.map (fun c =>
        if c.id = cid then { c with tags := c.tags ++ [r.1.id] } else c) }
    update_tag_usage_count db2 r.1.id 1

def attach_company_tags_create (db : SDB) (cid : Nat) (names : List String)
    (category : String) : SDB :=
  names.foldl (fun d nm => attach_company_tag_create d cid nm category) db

def add_relation (db : SDB) (cid : Nat) (rel : CompanyRelationCreate) : SDB :=
  match db.companies.find? (fun c => c.name == rel.related_company_name) with
  | none => db
  | some rc =>
    let r : SRelation :=
      if rel.relation_type = "spinoff" then ⟨rc.id, cid, "spinoff"⟩
      else if rel.relation_type = "parent" then ⟨cid, rc.id, "spinoff"⟩
      else ⟨cid, rc.id, rel.relation_type⟩
    { db with relations := db.relations ++ [r] }

/-- `create_company` (src/crud.py): company row with derived slug, then
founders (with propagation), investors, category tags, relations. -/
def create_company (db : SDB) (p : CompanyCreate) : SDB × Nat :=
  let cid := nextId (db.companies.map SCompany.id)
  let c : SCompany :=
    ⟨cid, p.name, Slug.create_slug_str p.name, p.website, p.description, p.sector,
      p.location, p.high_profile, p.remuneration, p.work_intensity, p.company_size,
      p.founded_year, p.last_funding, [], []⟩
  let db1 := { db with companies := db.companies ++ [c] }
  let db2 := p.founders.foldl (fun d fd => (write_founder_record d fd cid).1) db1
  let db3 := p.investors.foldl (fun d nm => add_investor d cid nm) db2
  let db4 := attach_company_tags_create db3 cid p.secteur_tags "secteur"
  let db5 := attach_company_tags_create db4 cid p.core_business_tags "core_business"
  let db6 := p.relations.foldl (fun d r => add_relation d cid r) db5
  (db6, cid)

def attach_company_tags_opt (db : SDB) (cid : Nat) (o : Option (List String))
    (category : String) : SDB :=
  match o with
  | some l => attach_company_tags_create db cid l category
  | none => db

/-- The tag-replacement section of `update_company`: decrement every
currently attached tag once, clear the associations, then re-attach the
provided category lists. -/
def update_company_tags (db : SDB) (cid : Nat)
    (secteur core : Option (List String)) : SDB :=
  if secteur.isSome || core.isSome then
    match db.companies.find? (fun c => c.id == cid) with
    | none => db
    | some c0 =>
      let db1 := c0.tags.foldl (fun d tid => update_tag_usage_count d tid (-1)) db
      let db2 := { db1 with companies := db1.companies.map (fun c =>
          if c.id = cid then { c with tags := [] } else c) }
      attach_company_tags_opt (attach_company_tags_opt db2 cid secteur "secteur")
        cid core "core_business"
  else db

/-! The legacy read-side filter (src/legacy/crud_sqlalchemy_legacy.py,
`filter_companies`).  The tag part joins the company→tag association once
and conjoins `Tag.name == t` for every requested name on that single
joined row; ordinal filters translate a value to its index in a fixed
order array; numeric filters compare directly. -/

def indexOfStr : List String → String → Option Nat
  | [], _ => none
  | a :: rest, s => if a = s then some 0 else (indexOfStr rest s).map (fun i => i + 1)

def wiOrder : List String := ["chill", "balanced", "intense", "bourrin"]

def csOrder : List String := ["early", "startup", "scaleup", "corp"]

/-- Ordinal predicate: `order[: idx+1]` / `order[idx:]` membership for
`lte`/`gte`, plain equality otherwise; no constraint when the requested
value is not in the order array.  `cmp` falls back to `eq` when falsy. -/
def ordinalPass (order : List String) (v : String) (cmp : Option String)
    (stored : String) : Bool :=
  match indexOfStr order v with
  | none => true
  | some idx =>
    let ce := match cmp with | none => "eq" | some "" => "eq" | some x => x
    if ce = "lte" then (order.take (idx + 1)).contains stored
    else if ce = "gte" then (order.drop idx).contains stored
    else stored == v

def ordinalFilter (order : List String) (v : Option String) (cmp : Option String)
    (stored : String) : Bool :=
  match v with
  | none => true
  | some s => if s = "" then true else ordinalPass order s cmp stored

/-- Numeric predicate for `high_profile`/`remuneration`; `cmp` falls back
to `gte` when falsy. -/
def numericFilter (v : Option Int) (cmp : Option String) (stored : Int) : Bool :=
  match v with
  | none => true
  | some x =>
    let ce := match cmp with | none => "gte" | some "" => "gte" | some y => y
    if ce = "lte" then stored ≤ x
    else if ce = "eq" then stored == x
    else x ≤ stored

/-- `filter_companies` (legacy module): the joined rows are
(company, matched tag) pairs when a tag list is given, and `distinct()`
deduplicates the companies at the end. -/
def filter_companies (db : SDB) (tags : Option (List String))
    (wi_value wi_cmp cs_value cs_cmp : Option String)
    (hp_value : Option Int) (hp_cmp : Option String)
    (rm_value : Option Int) (rm_cmp : Option String) : List SCompany :=
  let tagsTruthy : Bool := match tags with | some (_ :: _) => true | _ => false
  let rows : List (SCompany × Option STag) :=
    if tagsTruthy then
      (db.companies.map (fun c =>
        (db.tags.filter (fun t => c.tags.contains t.id)).map (fun t => (c, some t)))).flatten
    else db.companies.map (fun c => (c, none))
  let ts := tags.getD []
  let rows2 := rows.filter (fun r =>
    (if tagsTruthy then
        ts.all (fun x => match r.2 with | some t => t.name == x | none => false)
      else true) &&
    ordinalFilter wiOrder wi_value wi_cmp r.1.work_intensity &&
    ordinalFilter csOrder cs_value cs_cmp r.1.company_size &&
    numericFilter hp_value hp_cmp r.1.high_profile &&
    numericFilter rm_value rm_cmp r.1.remuneration)
  (rows2.map Prod.fst).dedup

end Crud

namespace Crud

/-- The tag-table invariant of the usage-count claims. -/
def TagsNonneg (db : SDB) : Prop := ∀ t ∈ db.tags, 0 ≤ t.usage_count

/-- The write operations of the SQLAlchemy layer that touch tag
attachment or usage counts. -/
inductive DbOp where
  | createCompany (p : CompanyCreate)
  | updateCompanyTags (cid : Nat) (secteur core : Option (List String))
  | updUsage (tid : Nat) (inc : Int)

def applyOp (db : SDB) : DbOp → SDB
  | .createCompany p => (create_company db p).1
  | .updateCompanyTags cid s c => update_company_tags db cid s c
  | .updUsage tid inc => update_tag_usage_count db tid inc

def runOps (db : SDB) (ops : List DbOp) : SDB := ops.foldl applyOp db

end Crud

namespace Services

/-!
Shallow embedding of the Neo4j service layer
(src/app/services/companies.py).  The graph is a record of node lists and
edge lists; Cypher `MERGE` is modelled as insert-if-absent (for nodes and
plain edges) or update-then-`SET` (for property edges).
-/

structure NCompany where
  id : Nat
  slug : String
  name : String
  website : Option String
  description : Option String
  sector : Option String
  location : Option String
  high_profile : Int
  remuneration : Int
  work_intensity : String
  company_size : String
  founded_year : Option Int
  last_funding : Option String
deriving DecidableEq

structure NPerson where
  id : Nat
  name : Option String
deriving DecidableEq

structure NTag where
  name : String
  category : String
  color : String
deriving DecidableEq

structure NInvestor where
  id : Nat
  name : String
deriving DecidableEq

/-- Properties carried by a FOUNDER_OF/EMPLOYEE_OF relationship. -/
structure RoleProps where
  title : Option String
  role : Option String
  department : Option String
  career_track : Option String
  background_type : Option String
  education_institution : Option String
  education_degree : Option String
  education_field : Option String
  education_year : Option Int
  professional_company : Option String
  professional_position : Option String
  professional_duration : Option String
  professional_description : Option String
deriving DecidableEq

structure NEdgeRole where
  person : Nat
  company : Nat
  props : RoleProps
deriving DecidableEq

structure NState where
  companies : List NCompany
  persons : List NPerson
  tags : List NTag
  investors : List NInvestor
  companyTags : List (Nat × String × String)
  personTags : List (Nat × String × String)
  employeeOf : List NEdgeRole
  founderOf : List NEdgeRole
  investedIn : List (Nat × Nat)
  related : List (Nat × Nat × String)
deriving DecidableEq

structure EmployeeCreate where
  person_id : Option Nat
  name : String
  title : Option String
  role : Option String
  department : Option String
  career_track : Option String
  background_type : Option String
  education_background : Option Crud.EducationBackground
  professional_background : Option Crud.ProfessionalBackground
  education_tags : List String
  professional_tags : List String
deriving DecidableEq

structure NCompanyCreate where
  name : String
  website : Option String
  description : Option String
  sector : Option String
  location : Option String
  high_profile : Int
  remuneration : Int
  work_intensity : String
  company_size : String
  founded_year : Option Int
  last_funding : Option String
  secteur_tags : List String
  core_business_tags : List String
  investors : List String
  employees : List EmployeeCreate
deriving DecidableEq

/-- `coalesce(max(id), 0) + 1`, computed fresh from the store. -/
def _next_company_id (st : NState) : Nat := (st.companies.map NCompany.id).foldr max 0 + 1

def _next_person_id (st : NState) : Nat := (st.persons.map NPerson.id).foldr max 0 + 1

def next_investor_id (st : NState) : Nat := (st.investors.map NInvestor.id).foldr max 0 + 1

/-- `MERGE (t:Tag {name, category}) ON CREATE SET t.color=...`. -/
def mergeTag (st : NState) (name category color : String) : NState :=
  if st.tags.any (fun t => t.name == name && t.category == category) then st
  else { st with tags := st.tags ++ [⟨name, category, color⟩] }

def mergeCompanyTagEdge (st : NState) (cid : Nat) (name category : String) : NState :=
  if st.companyTags.contains (cid, name, category) then st
  else { st with companyTags := st.companyTags ++ [(cid, name, category)] }

def mergePersonTagEdge (st : NState) (pid : Nat) (name category : String) : NState :=
  if st.personTags.contains (pid, name, category) then st
  else { st with personTags := st.personTags ++ [(pid, name, category)] }

def attachCompanyTag (st : NState) (cid : Nat) (raw category : String) : NState :=
  if Py.pyStrip raw = "" then st
  else mergeCompanyTagEdge (mergeTag st (Py.pyStrip raw) category "#64b5f6")
    cid (Py.pyStrip raw) category

/-- `_get_or_create_person`: an existing (truthy) id wins and may rename
the node; otherwise resolution falls back silently to the name, creating
a fresh `max+1` person when the name is unknown; a falsy name yields an
anonymous fresh person. -/
def _get_or_create_person (st : NState) (pidq : Option Nat) (nameq : Option String) :
    Nat × NState :=
  let byId : Option Nat :=
    match pidq with
    | some pid =>
      if pid = 0 then none
      else if st.persons.any (fun p => p.id == pid) then some pid else none
    | none => none
  match byId with
  | some pid =>
    match nameq with
    | some nm =>
      if nm = "" then (pid, st)
      else (pid, { st with persons := st.persons.map (fun p =>
          if p.id = pid then { p with name := some nm } else p) })
    | none => (pid, st)
  | none =>
    match nameq with
    | some nm =>
      if nm = "" then
        (_next_person_id st, { st with persons := st.persons ++ [⟨_next_person_id st, none⟩] })
      else
        match st.persons.find? (fun p => p.name == some nm) with
        | some p => (p.id, st)
        | none =>
          (_next_person_id st,
           { st with persons := st.persons ++ [⟨_next_person_id st, some nm⟩] })
    | none =>
      (_next_person_id st, { st with persons := st.persons ++ [⟨_next_person_id st, none⟩] })

def empRoleProps (emp : EmployeeCreate) : RoleProps :=
  { title := emp.title
    role := emp.role
    department := emp.department
    career_track := emp.career_track
    background_type := emp.background_type
    education_institution := emp.education_background.map (fun b => b.institution)
    education_degree := emp.education_background.bind (fun b => b.degree)
    education_field := emp.education_background.bind (fun b => b.field)
    education_year := emp.education_background.bind (fun b => b.year)
    professional_company := emp.professional_background.map (fun b => b.company)
    professional_position := emp.professional_background.bind (fun b => b.position)
    professional_duration := emp.professional_background.bind (fun b => b.duration)
    professional_description := emp.professional_background.bind (fun b => b.description) }

/-- `MERGE (p)-[r:EMPLOYEE_OF]->(c) SET r....`: one edge per
(person, company) pair; `SET` replaces every listed property. -/
def mergeEmployeeEdge (st : NState) (pid cid : Nat) (props : RoleProps) : NState :=
  if st.employeeOf.any (fun e => e.person == pid && e.company == cid) then
    { st with employeeOf := st.employeeOf.map (fun e =>
        if e.person = pid ∧ e.company = cid then { e with props := props } else e) }
  else { st with employeeOf := st.employeeOf ++ [⟨pid, cid, props⟩] }

def attachPersonTags (st : NState) (pid : Nat) (names : List String)
    (category : String) : NState :=
  names.foldl (fun s nm =>
    if Py.pyStrip nm = "" then s
    else mergePersonTagEdge (mergeTag s (Py.pyStrip nm) category "#64b5f6")
      pid (Py.pyStrip nm) category) st

/-- The employee loop body of the service `create_company`. -/
def create_employee (st : NState) (cid : Nat) (emp : EmployeeCreate) : NState :=
  if emp.name = "" then st
  else
    let r := _get_or_create_person st emp.person_id (some emp.name)
    let st2 := mergeEmployeeEdge r.2 r.1 cid (empRoleProps emp)
    let st3 := attachPersonTags st2 r.1 emp.education_tags "education"
    attachPersonTags st3 r.1 emp.professional_tags "professional"

def add_investor (st : NState) (cid : Nat) (nm : String) : NState :=
  if Py.pyStrip nm = "" then st
  else
    let r : Nat × NState :=
      match st.investors.find? (fun i => i.name == Py.pyStrip nm) with
      | some i => (i.id, st)
      | none =>
        (next_investor_id st,
         { st with investors := st.investors ++ [⟨next_investor_id st, Py.pyStrip nm⟩] })
    if r.2.investedIn.contains (r.1, cid) then r.2
    else { r.2 with investedIn := r.2.investedIn ++ [(r.1, cid)] }

def mergeCompany (st : NState) (c : NCompany) : NState :=
  if st.companies.any (fun d => d.id == c.id) then
    { st with companies := st.companies.map (fun d => if d.id = c.id then c else d) }
  else { st with companies := st.companies ++ [c] }

/-- The node written by the service `create_company`: fresh id, derived
slug, scalar fields copied from the payload (`sector` is nulled when it
arrives as an empty string, after Python truthiness). -/
def companyRecord (st : NState) (p : NCompanyCreate) : NCompany :=
  ⟨_next_company_id st, Slug.create_slug_str p.name, p.name, p.website, p.description,
    (match p.sector with
     | some s => if s = "" then none else some s
     | none => none),
    p.location, p.high_profile, p.remuneration, p.work_intensity, p.company_size,
    p.founded_year, p.last_funding⟩

/-- `create_company` (service layer): allocate `max+1`, `MERGE`+`SET` the
company node with all scalar fields and the derived slug, then attach the
category tags, investors and employees. -/
def create_company (st : NState) (p : NCompanyCreate) : NState × Nat :=
  let new_id := _next_company_id st
  let st1 := mergeCompany st (companyRecord st p)
  let st2 := p.secteur_tags.foldl (fun s nm => attachCompanyTag s new_id nm "secteur") st1
  let st3 := p.core_business_tags.foldl
    (fun s nm => attachCompanyTag s new_id nm "core_business") st2
  let st4 := p.investors.foldl (fun s nm => add_investor s new_id nm) st3
  let st5 := p.employees.foldl (fun s e => create_employee s new_id e) st4
  (st5, new_id)

/-- The scalar projection returned by `get_company` for the node itself. -/
def get_company (st : NState) (cid : Nat) : Option NCompany :=
  st.companies.find? (fun c => c.id == cid)

/-- `delete_company`: `MATCH (c:Company {id}) DETACH DELETE c` — the node
and every relationship touching it disappear, nothing else changes. -/
def delete_company (st : NState) (cid : Nat) : NState :=
  { st with
    companies := st.companies.filter (fun c => !(c.id == cid))
    companyTags := st.companyTags.filter (fun e => !(e.1 == cid))
    employeeOf := st.employeeOf.filter (fun e => !(e.company == cid))
    founderOf := st.founderOf.filter (fun e => !(e.company == cid))
    investedIn := st.investedIn.filter (fun e => !(e.2 == cid))
    related := st.related.filter (fun e => !(e.1 == cid || e.2.1 == cid)) }

/-- The tag branch of the service `filter_companies`: keep the companies
whose attached tag names cover the whole requested list. -/
def filter_companies_tags (st : NState) (ts : List String) : List NCompany :=
  if ts.isEmpty then st.companies
  else st.companies.filter (fun c =>
    ts.all (fun x => st.companyTags.any (fun e => e.1 == c.id && e.2.1 == x)))

end Services

theorem foldl_preserves {α : Type} {σ : Type} (P : σ → Prop) (step : σ → α → σ)
    (h : ∀ s x, P s → P (step s x)) :
    ∀ (l : List α) (s : σ), P s → P (l.foldl step s) := by
  intro l
  induction l with
  | nil => intro s hs; exact hs
  | cons a l ih => intro s hs; exact ih _ (h s a hs)

theorem le_foldr_max (l : List Nat) : ∀ x ∈ l, x ≤ l.foldr max 0 := by
  induction l with
  | nil => simp
  | cons a l ih =>
    intro x hx
    rcases List.mem_cons.mp hx with h | h
    · subst h; exact le_max_left _ _
    · exact le_trans (ih x h) (le_max_right _ _)

theorem foldr_max_append (l : List Nat) (x : Nat) :
    (l ++ [x]).foldr max 0 = max (l.foldr max 0) x := by
  induction l with
  | nil => simp
  | cons a l ih =>
    simp only [List.cons_append, List.foldr_cons, ih]
    rw [← max_assoc, max_comm a (l.foldr max 0), max_assoc]

theorem find?_append_left_none {α : Type} (p : α → Bool) (l1 l2 : List α)
    (h : ∀ x ∈ l1, p x = false) : (l1 ++ l2).find? p = l2.find? p := by
  induction l1 with
  | nil => rfl
  | cons a l ih =>
    rw [List.cons_append, List.find?_cons_of_neg _ (by simp [h a (by simp)])]
    exact ih (fun x hx => h x (by simp [hx]))

namespace Services

theorem companies_mergeTag (st : NState) (n c col : String) :
    (mergeTag st n c col).companies = st.companies := by
  unfold mergeTag
  split <;> rfl

theorem companies_mergeCompanyTagEdge (st : NState) (cid : Nat) (n c : String) :
    (mergeCompanyTagEdge st cid n c).companies = st.companies := by
  unfold mergeCompanyTagEdge
  split <;> rfl

theorem companies_mergePersonTagEdge (st : NState) (pid : Nat) (n c : String) :
    (mergePersonTagEdge st pid n c).companies = st.companies := by
  unfold mergePersonTagEdge
  split <;> rfl

theorem companies_attachCompanyTag (st : NState) (cid : Nat) (raw cat : String) :
    (attachCompanyTag st cid raw cat).companies = st.companies := by
  unfold attachCompanyTag
  split
  · rfl
  · rw [companies_mergeCompanyTagEdge, companies_mergeTag]

theorem companies_gocp (st : NState) (pidq : Option Nat) (nameq : Option String) :
    (_get_or_create_person st pidq nameq).2.companies = st.companies := by
  simp only [_get_or_create_person]
  rcases pidq with _ | pid <;> rcases nameq with _ | nm <;>
    repeat' first
      | rfl
      | split

theorem companies_mergeEmployeeEdge (st : NState) (pid cid : Nat) (props : RoleProps) :
    (mergeEmployeeEdge st pid cid props).companies = st.companies := by
  unfold mergeEmployeeEdge
  split <;> rfl

theorem companies_attachPersonTags (st : NState) (pid : Nat) (names : List String)
    (cat : String) : (attachPersonTags st pid names cat).companies = st.companies := by
  unfold attachPersonTags
  refine foldl_preserves (fun s => s.companies = st.companies) _ ?_ names st rfl
  intro s nm hs
  split
  · exact hs
  · rw [companies_mergePersonTagEdge, companies_mergeTag, hs]

theorem companies_create_employee (st : NState) (cid : Nat) (emp : EmployeeCreate) :
    (create_employee st cid emp).companies = st.companies := by
  unfold create_employee
  split
  · rfl
  · rw [companies_attachPersonTags, companies_attachPersonTags,
      companies_mergeEmployeeEdge, companies_gocp]

theorem companies_add_investor (st : NState) (cid : Nat) (nm : String) :
    (add_investor st cid nm).companies = st.companies := by
  simp only [add_investor]
  repeat' first
    | rfl
    | split

theorem id_fresh_company (st : NState) (d : NCompany) (hd : d ∈ st.companies) :
    d.id ≠ _next_company_id st := by
  have hle : d.id ≤ (st.companies.map NCompany.id).foldr max 0 :=
    le_foldr_max _ _ (List.mem_map_of_mem _ hd)
  unfold _next_company_id
  omega

/-- The service `create_company` only appends the freshly allocated
company node to the node list; all later steps touch other lists. -/
theorem create_company_companies_eq (st : NState) (p : NCompanyCreate) :
    (create_company st p).1.companies = st.companies ++ [companyRecord st p] := by
  have h0 : (mergeCompany st (companyRecord st p)).companies =
      st.companies ++ [companyRecord st p] := by
    unfold mergeCompany
    rw [if_neg]
    simp only [Bool.not_eq_true, List.any_eq_false]
    intro d hd
    simpa using id_fresh_company st d hd
  have h1 := foldl_preserves
    (fun s : NState => s.companies = st.companies ++ [companyRecord st p])
    (fun s nm => attachCompanyTag s (_next_company_id st) nm "secteur")
    (fun s nm hs =>
      (companies_attachCompanyTag s (_next_company_id st) nm "secteur").trans hs)
    p.secteur_tags _ h0
  have h2 := foldl_preserves
    (fun s : NState => s.companies = st.companies ++ [companyRecord st p])
    (fun s nm => attachCompanyTag s (_next_company_id st) nm "core_business")
    (fun s nm hs =>
      (companies_attachCompanyTag s (_next_company_id st) nm "core_business").trans hs)
    p.core_business_tags _ h1
  have h3 := foldl_preserves
    (fun s : NState => s.companies = st.companies ++ [companyRecord st p])
    (fun s nm => add_investor s (_next_company_id st) nm)
    (fun s nm hs => (companies_add_investor s (_next_company_id st) nm).trans hs)
    p.investors _ h2
  have h4 := foldl_preserves
    (fun s : NState => s.companies = st.companies ++ [companyRecord st p])
    (fun s e => create_employee s (_next_company_id st) e)
    (fun s e hs => (companies_create_employee s (_next_company_id st) e).trans hs)
    p.employees _ h3
  exact h4

/-- The empty graph store. -/
def emptyState : NState := ⟨[], [], [], [], [], [], [], [], [], []⟩

/-- Role-edge properties that are all unset. -/
def rpNone : RoleProps :=
  ⟨none, none, none, none, none, none, none, none, none, none, none, none, none⟩

end Services

theorem foldr_max_le (l : List Nat) (x : Nat) (h : ∀ y ∈ l, y ≤ x) :
    l.foldr max 0 ≤ x := by
  induction l with
  | nil => simp
  | cons a l ih =>
    simp only [List.foldr_cons]
    exact max_le (h a (by simp)) (ih (fun y hy => h y (by simp [hy])))

/-- C2: creating a company and fetching the returned id gives back every
scalar field of the payload unchanged and the slug derived from the name.
(The only caveat forced by Python truthiness, `sector or None`, is ruled
out by payload validity: a valid sector enum value is never `""`.) -/
theorem C2_create_get_roundtrip (st : Services.NState) (p : Services.NCompanyCreate)
    (hs : p.sector ≠ some "") :
    Services.get_company (Services.create_company st p).1 (Services.create_company st p).2 =
      some ⟨(Services.create_company st p).2, Slug.create_slug_str p.name, p.name,
        p.website, p.description, p.sector, p.location, p.high_profile, p.remuneration,
        p.work_intensity, p.company_size, p.founded_year, p.last_funding⟩ := by
  have hret : (Services.create_company st p).2 = Services._next_company_id st := rfl
  have hsec : (match p.sector with
      | some s => if s = "" then none else some s
      | none => none) = p.sector := by
    cases hps : p.sector with
    | none => rfl
    | some s =>
      show (if s = "" then none else some s) = some s
      rw [if_neg]
      intro he
      exact hs (by rw [hps, he])
  unfold Services.get_company
  rw [Services.create_company_companies_eq, find?_append_left_none]
  · rw [List.find?_cons_of_pos _ (by rw [hret]; exact beq_self_eq_true _)]
    unfold Services.companyRecord
    rw [hsec, hret]
  · intro x hx
    have := Services.id_fresh_company st x hx
    rw [hret]
    simpa using this

def pW2 : Services.NCompanyCreate :=
  ⟨"Kili Technology", some "https://kili.com", none, some "AI/ML", some "Paris", 4, 3,
    "intense", "scaleup", some 2018, some "Series A", ["AI/ML"], [], [], []⟩

theorem C2_create_get_roundtrip_witness :
    pW2.sector ≠ some "" ∧
    Services.get_company (Services.create_company Services.emptyState pW2).1
        (Services.create_company Services.emptyState pW2).2 =
      some ⟨1, "kili-technology", "Kili Technology", some "https://kili.com", none,
        some "AI/ML", some "Paris", 4, 3, "intense", "scaleup", some 2018,
        some "Series A"⟩ := by
  refine ⟨by decide, ?_⟩
  rw [C2_create_get_roundtrip Services.emptyState pW2 (by decide)]
  decide

/-- C8: deleting a company removes the node and every edge touching it
(role edges, company tag edges, investor edges, company relations) while
the Person/Tag/Investor node lists, the person tag edges, and every edge
not touching the deleted company survive unchanged. -/
theorem C8_delete_company_frame (st : Services.NState) (cid : Nat) :
    (Services.delete_company st cid).persons = st.persons ∧
    (Services.delete_company st cid).tags = st.tags ∧
    (Services.delete_company st cid).investors = st.investors ∧
    (Services.delete_company st cid).personTags = st.personTags ∧
    (∀ c, c ∈ (Services.delete_company st cid).companies ↔
        c ∈ st.companies ∧ c.id ≠ cid) ∧
    (∀ e, e ∈ (Services.delete_company st cid).employeeOf ↔
        e ∈ st.employeeOf ∧ e.company ≠ cid) ∧
    (∀ e, e ∈ (Services.delete_company st cid).founderOf ↔
        e ∈ st.founderOf ∧ e.company ≠ cid) ∧
    (∀ e, e ∈ (Services.delete_company st cid).companyTags ↔
        e ∈ st.companyTags ∧ e.1 ≠ cid) ∧
    (∀ e, e ∈ (Services.delete_company st cid).investedIn ↔
        e ∈ st.investedIn ∧ e.2 ≠ cid) ∧
    (∀ e, e ∈ (Services.delete_company st cid).related ↔
        e ∈ st.related ∧ e.1 ≠ cid ∧ e.2.1 ≠ cid) := by
  unfold Services.delete_company
  refine ⟨rfl, rfl, rfl, rfl, ?_, ?_, ?_, ?_, ?_, ?_⟩ <;> intro x <;>
    simp [List.mem_filter]

def stW8 : Services.NState :=
  ⟨[⟨1, "acme", "Acme", none, none, none, none, 3, 3, "balanced", "startup", none, none⟩,
    ⟨2, "beta", "Beta", none, none, none, none, 3, 3, "balanced", "startup", none, none⟩],
   [⟨7, some "Jane"⟩], [⟨"AI", "secteur", "#64b5f6"⟩], [⟨4, "VC"⟩],
   [(1, "AI", "secteur"), (2, "AI", "secteur")],
   [(7, "X", "education")],
   [⟨7, 1, Services.rpNone⟩, ⟨7, 2, Services.rpNone⟩],
   [], [(4, 1), (4, 2)], [(1, 2, "spinoff")]⟩

theorem C8_delete_company_frame_witness :
    (Services.delete_company stW8 1).persons = stW8.persons ∧
    (⟨7, 2, Services.rpNone⟩ : Services.NEdgeRole) ∈
      (Services.delete_company stW8 1).employeeOf ∧
    (⟨7, 1, Services.rpNone⟩ : Services.NEdgeRole) ∉
      (Services.delete_company stW8 1).employeeOf := by
  have h := C8_delete_company_frame stW8 1
  refine ⟨h.1, (h.2.2.2.2.2.1 _).mpr ⟨by decide, by decide⟩, ?_⟩
  intro hmem
  exact ((h.2.2.2.2.2.1 _).mp hmem).2 rfl

/-- C9: every allocator returns `max existing id (default 0) + 1`,
recomputed from the store, so the returned id is strictly above every
stored id; a create hands out exactly that id and bumps the next
allocation by one; and an id can only come out of the allocator again if
it exceeds every id still stored. -/
theorem C9_id_allocation (st : Services.NState) (p : Services.NCompanyCreate) (d : Nat) :
    (Services._next_company_id st = (st.companies.map Services.NCompany.id).foldr max 0 + 1) ∧
    (∀ c ∈ st.companies, c.id < Services._next_company_id st) ∧
    ((Services.create_company st p).2 = Services._next_company_id st ∧
      Services._next_company_id (Services.create_company st p).1 =
        (Services.create_company st p).2 + 1) ∧
    (Services._next_company_id st = d → ∀ c ∈ st.companies, c.id < d) ∧
    (Services._next_person_id st = (st.persons.map Services.NPerson.id).foldr max 0 + 1 ∧
      ∀ q ∈ st.persons, q.id < Services._next_person_id st) ∧
    (Services.next_investor_id st = (st.investors.map Services.NInvestor.id).foldr max 0 + 1 ∧
      ∀ i ∈ st.investors, i.id < Services.next_investor_id st) := by
  have hc : ∀ c ∈ st.companies, c.id < Services._next_company_id st := by
    intro c hcm
    have := le_foldr_max _ _ (List.mem_map_of_mem Services.NCompany.id hcm)
    unfold Services._next_company_id
    omega
  refine ⟨rfl, hc, ⟨rfl, ?_⟩, fun hd c hcm => hd ▸ hc c hcm, ⟨rfl, ?_⟩, ⟨rfl, ?_⟩⟩
  · show Services._next_company_id (Services.create_company st p).1 =
      Services._next_company_id st + 1
    unfold Services._next_company_id
    rw [Services.create_company_companies_eq, List.map_append]
    have hrec : [Services.companyRecord st p].map Services.NCompany.id =
        [Services._next_company_id st] := rfl
    rw [hrec, foldr_max_append]
    have hle : (st.companies.map Services.NCompany.id).foldr max 0 ≤
        Services._next_company_id st := by
      unfold Services._next_company_id
      omega
    rw [max_eq_right hle]
    unfold Services._next_company_id
    rfl
  · intro q hq
    have := le_foldr_max _ _ (List.mem_map_of_mem Services.NPerson.id hq)
    unfold Services._next_person_id
    omega
  · intro i hi
    have := le_foldr_max _ _ (List.mem_map_of_mem Services.NInvestor.id hi)
    unfold Services.next_investor_id
    omega

/-- C10: when the supplied `person_id` matches no stored Person, both
person-resolution paths raise no error and fall back silently to the
name: they return the existing person with that name, or create a fresh
`max+1` person; the result therefore need not be the supplied id. -/
theorem C10_person_fallback (st : Services.NState) (pid : Nat) (nm : String)
    (hpid : ∀ q ∈ st.persons, q.id ≠ pid) (hnm : nm ≠ "")
    (db : Crud.SDB) (fd : Crud.FounderCreate)
    (hfp : fd.person_id = some pid) (hfn : fd.name = nm)
    (hdb : ∀ q ∈ db.persons, q.id ≠ pid) :
    ((Services._get_or_create_person st (some pid) (some nm)).1 =
       (match st.persons.find? (fun q => q.name == some nm) with
        | some q => q.id
        | none => Services._next_person_id st) ∧
     (∃ q ∈ (Services._get_or_create_person st (some pid) (some nm)).2.persons,
        q.id = (Services._get_or_create_person st (some pid) (some nm)).1)) ∧
    (Crud.get_or_create_person db fd).1 =
      (match Crud.get_person_by_name db nm with
       | some q => some q
       | none => some ⟨Crud.nextPersonId db, nm⟩) := by
  have hany : (st.persons.any (fun p => p.id == pid)) = false := by
    rw [List.any_eq_false]
    intro q hq
    simpa using hpid q hq
  have hbyid : Services._get_or_create_person st (some pid) (some nm) =
      (match st.persons.find? (fun q => q.name == some nm) with
       | some q => (q.id, st)
       | none => (Services._next_person_id st,
           { st with persons := st.persons ++ [⟨Services._next_person_id st, some nm⟩] })) := by
    unfold Services._get_or_create_person
    by_cases h0 : pid = 0 <;> simp [h0, hany, hnm]
  have hid : Crud.get_person_by_id db pid = none := by
    unfold Crud.get_person_by_id
    rw [List.find?_eq_none]
    intro q hq
    simpa using hdb q hq
  refine ⟨⟨?_, ?_⟩, ?_⟩
  · rw [hbyid]
    cases hf : st.persons.find? (fun q => q.name == some nm) <;> simp [hf]
  · rw [hbyid]
    cases hf : st.persons.find? (fun q => q.name == some nm) with
    | some q =>
      simp only [hf]
      exact ⟨q, List.mem_of_find?_eq_some hf, rfl⟩
    | none =>
      simp only [hf]
      exact ⟨⟨Services._next_person_id st, some nm⟩, by simp, rfl⟩
  · unfold Crud.get_or_create_person
    rw [hfn]
    by_cases h0 : pid = 0 <;>
      · simp only [hfp, h0, hid]
        simp only [if_neg hnm]
        cases hq : Crud.get_person_by_name db nm <;> simp [hq, Crud.create_person, hfn]

def dbW4 : Crud.SDB :=
  ⟨[⟨1, "Acme", "acme", none, none, none, none, 3, 3, "balanced", "startup", none, none,
      [], [1, 2]⟩],
   [], [],
   [⟨1, "AI/ML", "secteur", "#64b5f6", 1⟩, ⟨2, "Data", "core_business", "#64b5f6", 1⟩],
   [], []⟩

def stW4 : Services.NState :=
  ⟨[⟨1, "acme", "Acme", none, none, none, none, 3, 3, "balanced", "startup", none, none⟩],
   [], [⟨"AI/ML", "secteur", "#64b5f6"⟩, ⟨"Data", "core_business", "#64b5f6"⟩], [],
   [(1, "AI/ML", "secteur"), (1, "Data", "core_business")], [], [], [], [], []⟩

/-- C4 (evaluation at the failing input): in `dbW4` the single company has
both the tag `AI/ML` and the tag `Data` attached — each single-name filter
returns exactly it — yet the legacy `filter_companies` with the two-element
list returns no company at all, because it conjoins `Tag.name == t` for
both names on one joined tag row; the Neo4j service filter on the same
data returns the company, as the claim requires. -/
theorem C4_tag_filter_code_bug :
    (Crud.filter_companies dbW4 (some ["AI/ML"])
        none none none none none none none none).map Crud.SCompany.id = [1] ∧
    (Crud.filter_companies dbW4 (some ["Data"])
        none none none none none none none none).map Crud.SCompany.id = [1] ∧
    Crud.filter_companies dbW4 (some ["AI/ML", "Data"])
        none none none none none none none none = [] ∧
    (Services.filter_companies_tags stW4 ["AI/ML", "Data"]).map
        Services.NCompany.id = [1] := by
  exact ⟨by decide, by decide, by decide, by decide⟩

def stW10 : Services.NState :=
  ⟨[], [⟨3, some "Jane Doe"⟩], [], [], [], [], [], [], [], []⟩

def dbW10 : Crud.SDB := ⟨[], [], [⟨3, "Jane Doe"⟩], [], [], []⟩

def fdW10 : Crud.FounderCreate :=
  ⟨some 99, "Jane Doe", none, none, none, none, [], [], none⟩

theorem C10_person_fallback_witness :
    (Services._get_or_create_person stW10 (some 99) (some "Jane Doe")).1 = 3 ∧
    (Crud.get_or_create_person dbW10 fdW10).1 = some ⟨3, "Jane Doe"⟩ := by
  have h := C10_person_fallback stW10 99 "Jane Doe" (by decide) (by decide) dbW10 fdW10
    (by decide) (by decide) (by decide)
  exact ⟨h.1.1.trans (by decide), h.2.trans (by decide)⟩

def stW9 : Services.NState :=
  ⟨[⟨1, "acme", "Acme", none, none, none, none, 3, 3, "balanced", "startup", none, none⟩,
    ⟨3, "gamma", "Gamma", none, none, none, none, 3, 3, "balanced", "startup", none, none⟩],
   [⟨2, some "Jane"⟩], [], [⟨5, "VC"⟩], [], [], [], [], [], []⟩

theorem indexOfStr_isSome (s : String) :
    ∀ O : List String, (∃ i, Crud.indexOfStr O s = some i) ↔ s ∈ O := by
  intro O
  induction O with
  | nil => simp [Crud.indexOfStr]
  | cons a O ih =>
    by_cases ha : a = s
    · subst ha
      simp [Crud.indexOfStr]
    · simp only [Crud.indexOfStr, if_neg ha, Option.map_eq_some', List.mem_cons]
      constructor
      · rintro ⟨i, j, hj, rfl⟩
        exact Or.inr (ih.mp ⟨j, hj⟩)
      · rintro (h | h)
        · exact absurd h.symm ha
        · obtain ⟨j, hj⟩ := ih.mpr h
          exact ⟨j + 1, j, hj, rfl⟩

theorem mem_take_indexOfStr (s : String) :
    ∀ (O : List String) (k : Nat),
      s ∈ O.take k ↔ ∃ i, Crud.indexOfStr O s = some i ∧ i < k := by
  intro O
  induction O with
  | nil => intro k; simp [Crud.indexOfStr]
  | cons a O ih =>
    intro k
    cases k with
    | zero => simp [List.take]
    | succ k =>
      rw [List.take_succ_cons]
      by_cases ha : a = s
      · subst ha
        simp [Crud.indexOfStr]
      · constructor
        · intro hmem
          rcases List.mem_cons.mp hmem with h | h
          · exact absurd h.symm ha
          · obtain ⟨i, hi, hik⟩ := (ih k).mp h
            exact ⟨i + 1, by simp [Crud.indexOfStr, if_neg ha, hi], by omega⟩
        · rintro ⟨i, hi, hik⟩
          simp only [Crud.indexOfStr, if_neg ha, Option.map_eq_some'] at hi
          obtain ⟨j, hj, rfl⟩ := hi
          exact List.mem_cons.mpr (Or.inr ((ih k).mpr ⟨j, hj, by omega⟩))

theorem mem_drop_indexOfStr (s : String) :
    ∀ O : List String, O.Nodup → ∀ k : Nat,
      s ∈ O.drop k ↔ ∃ i, Crud.indexOfStr O s = some i ∧ k ≤ i := by
  intro O
  induction O with
  | nil => intro _ k; simp [Crud.indexOfStr]
  | cons a O ih =>
    intro hnd k
    have hna : a ∉ O := (List.nodup_cons.mp hnd).1
    have hnd' : O.Nodup := (List.nodup_cons.mp hnd).2
    cases k with
    | zero =>
      rw [List.drop_zero]
      constructor
      · intro hmem
        obtain ⟨i, hi⟩ := (indexOfStr_isSome s (a :: O)).mpr hmem
        exact ⟨i, hi, Nat.zero_le i⟩
      · rintro ⟨i, hi, -⟩
        exact (indexOfStr_isSome s (a :: O)).mp ⟨i, hi⟩
    | succ k =>
      rw [List.drop_succ_cons]
      by_cases ha : a = s
      · subst ha
        simp only [Crud.indexOfStr, if_pos rfl]
        constructor
        · intro hmem
          exact absurd (List.mem_of_mem_drop hmem) hna
        · rintro ⟨i, hi, hik⟩
          cases hi
          omega
      · simp only [Crud.indexOfStr, if_neg ha, Option.map_eq_some']
        rw [ih hnd' k]
        constructor
        · rintro ⟨i, hi, hik⟩
          exact ⟨i + 1, ⟨i, hi, rfl⟩, by omega⟩
        · rintro ⟨i, ⟨j, hj, rfl⟩, hik⟩
          exact ⟨j, hj, by omega⟩

theorem contains_iff_mem_str (l : List String) (s : String) :
    l.contains s = true ↔ s ∈ l := by
  simp [List.contains, List.elem_iff]

theorem C9_id_allocation_witness :
    Services._next_company_id stW9 = 4 ∧
    (∀ c ∈ stW9.companies, c.id < 4) ∧
    Services._next_person_id stW9 = 3 ∧
    Services.next_investor_id stW9 = 6 := by
  have h := C9_id_allocation stW9 pW2 4
  refine ⟨by decide, ?_, by decide, by decide⟩
  intro c hcm
  exact h.2.2.2.1 (by decide) c hcm

theorem ordinalPass_lte_iff (order : List String) (v stored : String) (j : Nat)
    (hv : Crud.indexOfStr order v = some j) :
    Crud.ordinalPass order v (some "lte") stored = true ↔
      ∃ i, Crud.indexOfStr order stored = some i ∧ i ≤ j := by
  unfold Crud.ordinalPass
  rw [hv]
  show (order.take (j + 1)).contains stored = true ↔ _
  rw [contains_iff_mem_str, mem_take_indexOfStr]
  constructor
  · rintro ⟨i, hi, hik⟩
    exact ⟨i, hi, by omega⟩
  · rintro ⟨i, hi, hik⟩
    exact ⟨i, hi, by omega⟩

theorem ordinalPass_gte_iff (order : List String) (hnd : order.Nodup)
    (v stored : String) (j : Nat) (hv : Crud.indexOfStr order v = some j) :
    Crud.ordinalPass order v (some "gte") stored = true ↔
      ∃ i, Crud.indexOfStr order stored = some i ∧ j ≤ i := by
  unfold Crud.ordinalPass
  rw [hv]
  show (order.drop j).contains stored = true ↔ _
  rw [contains_iff_mem_str, mem_drop_indexOfStr stored order hnd j]

theorem ordinalPass_none_iff (order : List String) (v stored : String) (j : Nat)
    (hv : Crud.indexOfStr order v = some j) :
    Crud.ordinalPass order v none stored = true ↔ stored = v := by
  unfold Crud.ordinalPass
  rw [hv]
  show (stored == v) = true ↔ _
  exact beq_iff_eq

/-- With no tag list and no numeric filters, the legacy filter keeps
exactly the companies passing both ordinal predicates, each at most once. -/
theorem mem_filter_companies_ordinal (db : Crud.SDB)
    (wi_v wi_c cs_v cs_c : Option String) (c : Crud.SCompany) :
    c ∈ Crud.filter_companies db none wi_v wi_c cs_v cs_c none none none none ↔
      c ∈ db.companies ∧
        Crud.ordinalFilter Crud.wiOrder wi_v wi_c c.work_intensity = true ∧
        Crud.ordinalFilter Crud.csOrder cs_v cs_c c.company_size = true := by
  unfold Crud.filter_companies
  rw [List.mem_dedup]
  simp only [List.mem_map, List.mem_filter, Bool.and_eq_true]
  constructor
  · rintro ⟨⟨c0, t0⟩, ⟨hrow, hp⟩, rfl⟩
    simp only [if_neg (by decide : ¬(match (none : Option (List String)) with
      | some (_ :: _) => true
      | _ => false) = true)] at hrow
    obtain ⟨c1, hc1, he⟩ := List.mem_map.mp hrow
    cases he
    exact ⟨hc1, hp.1.1.1.2, hp.1.1.2⟩
  · rintro ⟨hcm, hwi, hcs⟩
    refine ⟨(c, none), ⟨?_, ?_⟩, rfl⟩
    · simp only [if_neg (by decide : ¬(match (none : Option (List String)) with
        | some (_ :: _) => true
        | _ => false) = true)]
      exact List.mem_map.mpr ⟨c, hcm, rfl⟩
    · simp [hwi, hcs, Crud.numericFilter]

theorem filter_wi_lte_iff (db : Crud.SDB) (v : String) (j : Nat) (c : Crud.SCompany)
    (hv : Crud.indexOfStr Crud.wiOrder v = some j) :
    c ∈ Crud.filter_companies db none (some v) (some "lte") none none none none none none ↔
      c ∈ db.companies ∧
        ∃ i, Crud.indexOfStr Crud.wiOrder c.work_intensity = some i ∧ i ≤ j := by
  have hvne : v ≠ "" := by
    intro he
    rw [he] at hv
    rw [(by decide : Crud.indexOfStr Crud.wiOrder "" = none)] at hv
    exact Option.noConfusion hv
  rw [mem_filter_companies_ordinal]
  have h1 : Crud.ordinalFilter Crud.wiOrder (some v) (some "lte") c.work_intensity = true ↔
      ∃ i, Crud.indexOfStr Crud.wiOrder c.work_intensity = some i ∧ i ≤ j := by
    show (if v = "" then true else Crud.ordinalPass Crud.wiOrder v (some "lte")
      c.work_intensity) = true ↔ _
    rw [if_neg hvne]
    exact ordinalPass_lte_iff _ _ _ _ hv
  rw [h1]
  have h2 : Crud.ordinalFilter Crud.csOrder none none c.company_size = true := rfl
  simp [h2]

theorem filter_wi_gte_iff (db : Crud.SDB) (v : String) (j : Nat) (c : Crud.SCompany)
    (hv : Crud.indexOfStr Crud.wiOrder v = some j) :
    c ∈ Crud.filter_companies db none (some v) (some "gte") none none none none none none ↔
      c ∈ db.companies ∧
        ∃ i, Crud.indexOfStr Crud.wiOrder c.work_intensity = some i ∧ j ≤ i := by
  have hvne : v ≠ "" := by
    intro he
    rw [he] at hv
    rw [(by decide : Crud.indexOfStr Crud.wiOrder "" = none)] at hv
    exact Option.noConfusion hv
  rw [mem_filter_companies_ordinal]
  have h1 : Crud.ordinalFilter Crud.wiOrder (some v) (some "gte") c.work_intensity = true ↔
      ∃ i, Crud.indexOfStr Crud.wiOrder c.work_intensity = some i ∧ j ≤ i := by
    show (if v = "" then true else Crud.ordinalPass Crud.wiOrder v (some "gte")
      c.work_intensity) = true ↔ _
    rw [if_neg hvne]
    exact ordinalPass_gte_iff _ (by decide) _ _ _ hv
  rw [h1]
  have h2 : Crud.ordinalFilter Crud.csOrder none none c.company_size = true := rfl
  simp [h2]

theorem filter_wi_eq_iff (db : Crud.SDB) (v : String) (j : Nat) (c : Crud.SCompany)
    (hv : Crud.indexOfStr Crud.wiOrder v = some j) :
    c ∈ Crud.filter_companies db none (some v) none none none none none none none ↔
      c ∈ db.companies ∧ c.work_intensity = v := by
  have hvne : v ≠ "" := by
    intro he
    rw [he] at hv
    rw [(by decide : Crud.indexOfStr Crud.wiOrder "" = none)] at hv
    exact Option.noConfusion hv
  rw [mem_filter_companies_ordinal]
  have h1 : Crud.ordinalFilter Crud.wiOrder (some v) none c.work_intensity = true ↔
      c.work_intensity = v := by
    show (if v = "" then true else Crud.ordinalPass Crud.wiOrder v none
      c.work_intensity) = true ↔ _
    rw [if_neg hvne]
    exact ordinalPass_none_iff _ _ _ _ hv
  rw [h1]
  have h2 : Crud.ordinalFilter Crud.csOrder none none c.company_size = true := rfl
  simp [h2]

theorem filter_cs_lte_iff (db : Crud.SDB) (v : String) (j : Nat) (c : Crud.SCompany)
    (hv : Crud.indexOfStr Crud.csOrder v = some j) :
    c ∈ Crud.filter_companies db none none none (some v) (some "lte") none none none none ↔
      c ∈ db.companies ∧
        ∃ i, Crud.indexOfStr Crud.csOrder c.company_size = some i ∧ i ≤ j := by
  have hvne : v ≠ "" := by
    intro he
    rw [he] at hv
    rw [(by decide : Crud.indexOfStr Crud.csOrder "" = none)] at hv
    exact Option.noConfusion hv
  rw [mem_filter_companies_ordinal]
  have h1 : Crud.ordinalFilter Crud.csOrder (some v) (some "lte") c.company_size = true ↔
      ∃ i, Crud.indexOfStr Crud.csOrder c.company_size = some i ∧ i ≤ j := by
    show (if v = "" then true else Crud.ordinalPass Crud.csOrder v (some "lte")
      c.company_size) = true ↔ _
    rw [if_neg hvne]
    exact ordinalPass_lte_iff _ _ _ _ hv
  rw [h1]
  have h2 : Crud.ordinalFilter Crud.wiOrder none none c.work_intensity = true := rfl
  simp [h2]

theorem filter_cs_gte_iff (db : Crud.SDB) (v : String) (j : Nat) (c : Crud.SCompany)
    (hv : Crud.indexOfStr Crud.csOrder v = some j) :
    c ∈ Crud.filter_companies db none none none (some v) (some "gte") none none none none ↔
      c ∈ db.companies ∧
        ∃ i, Crud.indexOfStr Crud.csOrder c.company_size = some i ∧ j ≤ i := by
  have hvne : v ≠ "" := by
    intro he
    rw [he] at hv
    rw [(by decide : Crud.indexOfStr Crud.csOrder "" = none)] at hv
    exact Option.noConfusion hv
  rw [mem_filter_companies_ordinal]
  have h1 : Crud.ordinalFilter Crud.csOrder (some v) (some "gte") c.company_size = true ↔
      ∃ i, Crud.indexOfStr Crud.csOrder c.company_size = some i ∧ j ≤ i := by
    show (if v = "" then true else Crud.ordinalPass Crud.csOrder v (some "gte")
      c.company_size) = true ↔ _
    rw [if_neg hvne]
    exact ordinalPass_gte_iff _ (by decide) _ _ _ hv
  rw [h1]
  have h2 : Crud.ordinalFilter Crud.wiOrder none none c.work_intensity = true := rfl
  simp [h2]

theorem filter_cs_eq_iff (db : Crud.SDB) (v : String) (j : Nat) (c : Crud.SCompany)
    (hv : Crud.indexOfStr Crud.csOrder v = some j) :
    c ∈ Crud.filter_companies db none none none (some v) none none none none none ↔
      c ∈ db.companies ∧ c.company_size = v := by
  have hvne : v ≠ "" := by
    intro he
    rw [he] at hv
    rw [(by decide : Crud.indexOfStr Crud.csOrder "" = none)] at hv
    exact Option.noConfusion hv
  rw [mem_filter_companies_ordinal]
  have h1 : Crud.ordinalFilter Crud.csOrder (some v) none c.company_size = true ↔
      c.company_size = v := by
    show (if v = "" then true else Crud.ordinalPass Crud.csOrder v none
      c.company_size) = true ↔ _
    rw [if_neg hvne]
    exact ordinalPass_none_iff _ _ _ _ hv
  rw [h1]
  have h2 : Crud.ordinalFilter Crud.wiOrder none none c.work_intensity = true := rfl
  simp [h2]

theorem wi_le_one_iff (s : String) :
    (∃ i, Crud.indexOfStr Crud.wiOrder s = some i ∧ i ≤ 1) ↔
      (s = "chill" ∨ s = "balanced") := by
  unfold Crud.wiOrder
  by_cases h1 : ("chill" : String) = s
  · subst h1
    simp [Crud.indexOfStr]
  · by_cases h2 : ("balanced" : String) = s
    · subst h2
      simp [Crud.indexOfStr, h1]
    · by_cases h3 : ("intense" : String) = s
      · subst h3
        simp [Crud.indexOfStr, h1, h2]
      · by_cases h4 : ("bourrin" : String) = s
        · subst h4
          simp [Crud.indexOfStr, h1, h2, h3]
        · constructor
          · rintro ⟨i, hi, -⟩
            simp [Crud.indexOfStr, h1, h2, h3, h4] at hi
          · rintro (h | h) <;> subst h
            · exact absurd rfl h1
            · exact absurd rfl h2

/-- C5: the ordinal filters on `work_intensity` and `company_size` select
by position in the fixed orders `chill<balanced<intense<bourrin` and
`early<startup<scaleup<corp`: `lte` keeps exactly the companies whose
stored value has index at most the requested value's index, `gte` keeps
index at least it, and an omitted `cmp` defaults to plain equality; in
particular `lte` at `balanced` keeps exactly the `chill`/`balanced`
companies, excluding `intense` and `bourrin`. -/
theorem C5_ordinal_filters (db : Crud.SDB) :
    (∀ v j c, Crud.indexOfStr Crud.wiOrder v = some j →
      (c ∈ Crud.filter_companies db none (some v) (some "lte") none none none none none none ↔
        c ∈ db.companies ∧
          ∃ i, Crud.indexOfStr Crud.wiOrder c.work_intensity = some i ∧ i ≤ j)) ∧
    (∀ v j c, Crud.indexOfStr Crud.wiOrder v = some j →
      (c ∈ Crud.filter_companies db none (some v) (some "gte") none none none none none none ↔
        c ∈ db.companies ∧
          ∃ i, Crud.indexOfStr Crud.wiOrder c.work_intensity = some i ∧ j ≤ i)) ∧
    (∀ v j c, Crud.indexOfStr Crud.wiOrder v = some j →
      (c ∈ Crud.filter_companies db none (some v) none none none none none none none ↔
        c ∈ db.companies ∧ c.work_intensity = v)) ∧
    (∀ v j c, Crud.indexOfStr Crud.csOrder v = some j →
      (c ∈ Crud.filter_companies db none none none (some v) (some "lte") none none none none ↔
        c ∈ db.companies ∧
          ∃ i, Crud.indexOfStr Crud.csOrder c.company_size = some i ∧ i ≤ j)) ∧
    (∀ v j c, Crud.indexOfStr Crud.csOrder v = some j →
      (c ∈ Crud.filter_companies db none none none (some v) (some "gte") none none none none ↔
        c ∈ db.companies ∧
          ∃ i, Crud.indexOfStr Crud.csOrder c.company_size = some i ∧ j ≤ i)) ∧
    (∀ v j c, Crud.indexOfStr Crud.csOrder v = some j →
      (c ∈ Crud.filter_companies db none none none (some v) none none none none none ↔
        c ∈ db.companies ∧ c.company_size = v)) ∧
    (∀ c, c ∈ Crud.filter_companies db none (some "balanced") (some "lte")
        none none none none none none ↔
      c ∈ db.companies ∧
        (c.work_intensity = "chill" ∨ c.work_intensity = "balanced")) := by
  refine ⟨fun v j c hv => filter_wi_lte_iff db v j c hv,
    fun v j c hv => filter_wi_gte_iff db v j c hv,
    fun v j c hv => filter_wi_eq_iff db v j c hv,
    fun v j c hv => filter_cs_lte_iff db v j c hv,
    fun v j c hv => filter_cs_gte_iff db v j c hv,
    fun v j c hv => filter_cs_eq_iff db v j c hv, ?_⟩
  intro c
  rw [filter_wi_lte_iff db "balanced" 1 c (by decide), wi_le_one_iff]

def mkCW5 (i : Nat) (wi : String) : Crud.SCompany :=
  ⟨i, "C", "c", none, none, none, none, 3, 3, wi, "startup", none, none, [], []⟩

def dbW5 : Crud.SDB :=
  ⟨[mkCW5 1 "chill", mkCW5 2 "balanced", mkCW5 3 "intense", mkCW5 4 "bourrin"],
   [], [], [], [], []⟩

theorem C5_ordinal_filters_witness :
    mkCW5 1 "chill" ∈ Crud.filter_companies dbW5 none (some "balanced") (some "lte")
      none none none none none none ∧
    mkCW5 3 "intense" ∉ Crud.filter_companies dbW5 none (some "balanced") (some "lte")
      none none none none none none := by
  have h := C5_ordinal_filters dbW5
  constructor
  · exact (h.2.2.2.2.2.2 _).mpr ⟨by decide, Or.inl rfl⟩
  · intro hm
    rcases ((h.2.2.2.2.2.2 _).mp hm).2 with h' | h' <;> exact absurd h' (by decide)

namespace Crud

theorem tags_gocp (db : SDB) (fd : FounderCreate) :
    (get_or_create_person db fd).2.tags = db.tags := by
  simp only [get_or_create_person]
  repeat' first
    | rfl
    | split

theorem tags_propagate (db : SDB) (src : SFounder) :
    (propagate_founder_profile db src).tags = db.tags := by
  simp only [propagate_founder_profile]
  repeat' first
    | rfl
    | split

theorem tags_add_investor (db : SDB) (cid : Nat) (nm : String) :
    (add_investor db cid nm).tags = db.tags := by
  simp only [add_investor]
  repeat' first
    | rfl
    | split

theorem tags_add_relation (db : SDB) (cid : Nat) (r : CompanyRelationCreate) :
    (add_relation db cid r).tags = db.tags := by
  simp only [add_relation]
  repeat' first
    | rfl
    | split

theorem nonneg_update (db : SDB) (tid : Nat) (inc : Int) (h : TagsNonneg db) :
    TagsNonneg (update_tag_usage_count db tid inc) := by
  intro t ht
  simp only [update_tag_usage_count] at ht
  obtain ⟨t0, ht0, rfl⟩ := List.mem_map.mp ht
  by_cases he : t0.id = tid
  · rw [if_pos he]
    exact le_max_left 0 _
  · rw [if_neg he]
    exact h t0 ht0

theorem nonneg_goc_tag (db : SDB) (n c : String) (h : TagsNonneg db) :
    TagsNonneg (get_or_create_tag db n c).2 := by
  unfold get_or_create_tag
  cases hf : get_tag_by_name_and_category db n c with
  | some t => exact h
  | none =>
    intro t ht
    simp only [create_tag] at ht
    rcases List.mem_append.mp ht with h1 | h1
    · exact h t h1
    · rw [List.mem_singleton] at h1
      subst h1
      exact le_refl 0

theorem nonneg_attach_company_tag (db : SDB) (cid : Nat) (raw cat : String)
    (h : TagsNonneg db) : TagsNonneg (attach_company_tag_create db cid raw cat) := by
  unfold attach_company_tag_create
  split
  · exact h
  · apply nonneg_update
    intro t ht
    exact nonneg_goc_tag db (Py.pyStrip raw) cat h t ht

theorem nonneg_attach_company_tags (db : SDB) (cid : Nat) (L : List String) (cat : String)
    (h : TagsNonneg db) : TagsNonneg (attach_company_tags_create db cid L cat) :=
  foldl_preserves TagsNonneg _ (fun d nm hd => nonneg_attach_company_tag d cid nm cat hd) L db h

theorem nonneg_attach_founder_tag (acc : SDB × List Nat) (raw cat : String)
    (h : TagsNonneg acc.1) : TagsNonneg (attach_founder_tag acc raw cat).1 := by
  unfold attach_founder_tag
  split
  · exact h
  · apply nonneg_update
    exact nonneg_goc_tag acc.1 (Py.pyStrip raw) cat h

theorem nonneg_attach_founder_tags (db : SDB) (ids : List Nat) (L : List String)
    (cat : String) (h : TagsNonneg db) :
    TagsNonneg (attach_founder_tags db ids L cat).1 :=
  foldl_preserves (fun a : SDB × List Nat => TagsNonneg a.1) _
    (fun a nm ha => nonneg_attach_founder_tag a nm cat ha) L (db, ids) h

theorem nonneg_write_founder (db : SDB) (fd : FounderCreate) (cid : Nat)
    (h : TagsNonneg db) : TagsNonneg (write_founder_record db fd cid).1 := by
  have h1 : TagsNonneg (get_or_create_person db fd).2 := by
    intro t ht
    rw [tags_gocp] at ht
    exact h t ht
  have h2 := nonneg_attach_founder_tags (get_or_create_person db fd).2 []
    fd.education_tags "education" h1
  have h3 := nonneg_attach_founder_tags _
    (attach_founder_tags (get_or_create_person db fd).2 [] fd.education_tags "education").2
    fd.professional_tags "professional" h2
  simp only [write_founder_record]
  split
  · split
    · exact fun t ht => h3 t ht
    · intro t ht
      rw [tags_propagate] at ht
      exact h3 t ht
  · exact fun t ht => h3 t ht

theorem nonneg_create_company (db : SDB) (p : CompanyCreate) (h : TagsNonneg db) :
    TagsNonneg (create_company db p).1 := by
  unfold create_company
  simp only []
  apply foldl_preserves TagsNonneg _ (fun d r hd => by
    intro t ht
    rw [tags_add_relation] at ht
    exact hd t ht)
  apply nonneg_attach_company_tags
  apply nonneg_attach_company_tags
  apply foldl_preserves TagsNonneg _ (fun d nm hd => by
    intro t ht
    rw [tags_add_investor] at ht
    exact hd t ht)
  apply foldl_preserves TagsNonneg _ (fun d fd hd => nonneg_write_founder d fd _ hd)
  exact fun t ht => h t ht

theorem nonneg_attach_opt (db : SDB) (cid : Nat) (o : Option (List String))
    (cat : String) (h : TagsNonneg db) :
    TagsNonneg (attach_company_tags_opt db cid o cat) := by
  cases o with
  | none => exact h
  | some l => exact nonneg_attach_company_tags db cid l cat h

theorem nonneg_update_company_tags (db : SDB) (cid : Nat) (s c : Option (List String))
    (h : TagsNonneg db) : TagsNonneg (update_company_tags db cid s c) := by
  simp only [update_company_tags]
  split
  · split
    · exact h
    · rename_i c0 heq
      have hbase : TagsNonneg
          (c0.tags.foldl (fun d tid => update_tag_usage_count d tid (-1)) db) :=
        foldl_preserves TagsNonneg _ (fun d tid hd => nonneg_update d tid (-1) hd)
          c0.tags db h
      exact nonneg_attach_opt _ _ _ _ (nonneg_attach_opt _ _ _ _ (fun t ht => hbase t ht))
  · exact h

end Crud

/-- C7: across any sequence of company creates (which attach tags),
company tag replacements (which detach every current tag before
re-attaching) and raw usage-count updates, every tag's usage_count stays
non-negative, because the only mutation path floors at 0 and new tags
start at 0. -/
theorem C7_usage_count_nonneg (db : Crud.SDB) (ops : List Crud.DbOp)
    (h0 : ∀ t ∈ db.tags, 0 ≤ t.usage_count) :
    ∀ t ∈ (Crud.runOps db ops).tags, 0 ≤ t.usage_count := by
  refine foldl_preserves Crud.TagsNonneg Crud.applyOp ?_ ops db h0
  intro d op hd
  cases op with
  | createCompany p => exact Crud.nonneg_create_company d p hd
  | updateCompanyTags cid s c => exact Crud.nonneg_update_company_tags d cid s c hd
  | updUsage tid inc => exact Crud.nonneg_update d tid inc hd

def dbW7 : Crud.SDB :=
  ⟨[⟨1, "Acme", "acme", none, none, none, none, 3, 3, "balanced", "startup", none, none,
      [], [1]⟩],
   [], [], [⟨1, "AI", "secteur", "#64b5f6", 1⟩], [], []⟩

def opsW7 : List Crud.DbOp :=
  [Crud.DbOp.updUsage 1 (-5), Crud.DbOp.updateCompanyTags 1 (some []) (some [])]

theorem C7_usage_count_nonneg_witness :
    ((Crud.runOps dbW7 opsW7).tags.map Crud.STag.usage_count = [0]) ∧
    0 ≤ (⟨1, "AI", "secteur", "#64b5f6", 0⟩ : Crud.STag).usage_count := by
  refine ⟨by decide, ?_⟩
  exact C7_usage_count_nonneg dbW7 opsW7 (by decide) _ (by decide)

theorem find?_map_pres {α : Type} (p : α → Bool) (f : α → α) (l : List α)
    (hf : ∀ t, p (f t) = p t) : (l.map f).find? p = (l.find? p).map f := by
  induction l with
  | nil => rfl
  | cons a l ih =>
    cases hp : p a
    · rw [List.map_cons, List.find?_cons_of_neg _ (by rw [hf]; simp [hp]),
        List.find?_cons_of_neg _ (by simp [hp]), ih]
    · rw [List.map_cons, List.find?_cons_of_pos _ (by rw [hf]; exact hp),
        List.find?_cons_of_pos _ hp, Option.map_some']

theorem find?_append_some {α : Type} (p : α → Bool) (l1 l2 : List α) (t : α)
    (h : l1.find? p = some t) : (l1 ++ l2).find? p = some t := by
  induction l1 with
  | nil => simp at h
  | cons a l ih =>
    cases hp : p a
    · rw [List.find?_cons_of_neg _ (by simp [hp])] at h
      rw [List.cons_append, List.find?_cons_of_neg _ (by simp [hp])]
      exact ih h
    · rw [List.find?_cons_of_pos _ hp] at h
      rw [List.cons_append, List.find?_cons_of_pos _ hp]
      exact h

namespace Crud

/-- The usage counter currently stored for the `(name, category)` tag. -/
def tagUsageOpt (db : SDB) (nm cat : String) : Option Int :=
  (get_tag_by_name_and_category db nm cat).map STag.usage_count

/-- Expected counter after `k` unconditional attach-increments: an
existing counter grows by `k`; a missing tag appears at `k` when `k` is
positive. -/
def addCount : Option Int → Nat → Option Int
  | some u, k => some (u + k)
  | none, 0 => none
  | none, Nat.succ k => some (1 + (k : Int))

def TagIdsNodup (db : SDB) : Prop := (db.tags.map STag.id).Nodup

theorem tag_id_lt_next (db : SDB) (t : STag) (ht : t ∈ db.tags) : t.id < nextTagId db := by
  have := le_foldr_max _ _ (List.mem_map_of_mem STag.id ht)
  unfold nextTagId nextId
  omega

theorem nodup_update (db : SDB) (tid : Nat) (inc : Int) (h : TagIdsNodup db) :
    TagIdsNodup (update_tag_usage_count db tid inc) := by
  unfold TagIdsNodup update_tag_usage_count
  simp only [List.map_map]
  have hcong : db.tags.map
      (STag.id ∘ fun t =>
        if t.id = tid then { t with usage_count := max 0 (t.usage_count + inc) } else t) =
      db.tags.map STag.id := by
    apply List.map_congr_left
    intro t ht
    by_cases he : t.id = tid <;> simp [he]
  rw [hcong]
  exact h

theorem nodup_goc_tag (db : SDB) (n c : String) (h : TagIdsNodup db) :
    TagIdsNodup (get_or_create_tag db n c).2 := by
  unfold get_or_create_tag
  cases hf : get_tag_by_name_and_category db n c with
  | some t => exact h
  | none =>
    unfold TagIdsNodup create_tag
    simp only [List.map_append, List.nodup_append]
    refine ⟨h, by simp, ?_⟩
    intro a ha hb
    simp only [List.map_cons, List.map_nil, List.mem_singleton] at hb
    obtain ⟨t, ht, rfl⟩ := List.mem_map.mp ha
    have := tag_id_lt_next db t ht
    omega

theorem goc_tag_mem (db : SDB) (n c : String) :
    (get_or_create_tag db n c).1 ∈ (get_or_create_tag db n c).2.tags := by
  unfold get_or_create_tag
  cases hf : get_tag_by_name_and_category db n c with
  | some t => exact List.mem_of_find?_eq_some hf
  | none => simp [create_tag]

theorem goc_tag_name (db : SDB) (n c : String) :
    (get_or_create_tag db n c).1.name = n ∧ (get_or_create_tag db n c).1.category = c := by
  unfold get_or_create_tag
  cases hf : get_tag_by_name_and_category db n c with
  | some t =>
    have hp := List.find?_some hf
    simp only [Bool.and_eq_true, beq_iff_eq] at hp
    exact hp
  | none => exact ⟨rfl, rfl⟩

theorem goc_tag_mono (db : SDB) (n c : String) (t : STag) (ht : t ∈ db.tags) :
    t ∈ (get_or_create_tag db n c).2.tags := by
  unfold get_or_create_tag
  cases hf : get_tag_by_name_and_category db n c with
  | some t2 => exact ht
  | none =>
    simp only [create_tag]
    exact List.mem_append.mpr (Or.inl ht)

theorem usageOpt_update (db : SDB) (tid : Nat) (inc : Int) (nm cat : String) :
    tagUsageOpt (update_tag_usage_count db tid inc) nm cat =
      (get_tag_by_name_and_category db nm cat).map
        (fun t => if t.id = tid then max 0 (t.usage_count + inc) else t.usage_count) := by
  unfold tagUsageOpt update_tag_usage_count get_tag_by_name_and_category
  simp only []
  rw [find?_map_pres _ _ _ (fun t => by by_cases h : t.id = tid <;> simp [h])]
  cases hf : db.tags.find? (fun t => t.name == nm && t.category == cat) with
  | none => rfl
  | some t =>
    simp only [Option.map_some']
    by_cases h : t.id = tid <;> simp [h]

end Crud

namespace Crud

theorem nodup_attach_company_tag (db : SDB) (cid : Nat) (raw cat : String)
    (h : TagIdsNodup db) : TagIdsNodup (attach_company_tag_create db cid raw cat) := by
  unfold attach_company_tag_create
  split
  · exact h
  · apply nodup_update
    exact nodup_goc_tag db (Py.pyStrip raw) cat h

theorem get_tag_companies_irrel (db : SDB) (cs : List SCompany) (nm cat : String) :
    get_tag_by_name_and_category { db with companies := cs } nm cat =
      get_tag_by_name_and_category db nm cat := rfl

theorem addCount_succ (o : Option Int) (k : Nat) :
    addCount (addCount o 1) k = addCount o (k + 1) := by
  cases o with
  | some u =>
    simp only [addCount, Option.some.injEq]
    push_cast
    ring
  | none =>
    simp only [addCount, Option.some.injEq]
    push_cast
    ring

theorem usageOpt_goc_found (db : SDB) (n c : String) (t : STag)
    (hf : get_tag_by_name_and_category db n c = some t) :
    get_or_create_tag db n c = (t, db) := by
  unfold get_or_create_tag
  rw [hf]

theorem usageOpt_goc_new (db : SDB) (n c : String)
    (hf : get_tag_by_name_and_category db n c = none) :
    get_or_create_tag db n c = (⟨nextTagId db, n, c, "#64b5f6", 0⟩,
      { db with tags := db.tags ++ [⟨nextTagId db, n, c, "#64b5f6", 0⟩] }) := by
  unfold get_or_create_tag
  rw [hf]
  rfl

/-- One pass of the create-path tag loop: a blank entry is skipped, an
entry resolving to the observed tag bumps its counter by exactly one
(creating it at 1 when absent), and any other entry leaves the observed
tag's counter untouched. -/
theorem attach_one_usage (db : SDB) (cid : Nat) (x cat nm : String)
    (hx : Py.pyStrip x ≠ "") (h1 : TagsNonneg db) (h2 : TagIdsNodup db) :
    tagUsageOpt (attach_company_tag_create db cid x cat) nm cat =
      (if Py.pyStrip x = nm then addCount (tagUsageOpt db nm cat) 1
       else tagUsageOpt db nm cat) := by
  unfold attach_company_tag_create
  rw [if_neg hx]
  simp only []
  rw [usageOpt_update, get_tag_companies_irrel]
  by_cases hxm : Py.pyStrip x = nm
  · rw [if_pos hxm, hxm]
    cases hf : get_tag_by_name_and_category db nm cat with
    | some t0 =>
      rw [usageOpt_goc_found db nm cat t0 hf]
      have hmem : t0 ∈ db.tags := List.mem_of_find?_eq_some hf
      have hge : 0 ≤ t0.usage_count := h1 t0 hmem
      rw [hf]
      unfold tagUsageOpt
      rw [hf]
      simp only [Option.map_some', addCount, Option.some.injEq]
      rw [if_pos trivial, max_eq_right (by omega)]
      push_cast
      ring
    | none =>
      rw [usageOpt_goc_new db nm cat hf]
      simp only []
      have hall : ∀ y ∈ db.tags, (fun t => t.name == nm && t.category == cat) y = false := by
        intro y hy
        simpa using List.find?_eq_none.mp hf y hy
      have happ : get_tag_by_name_and_category
          { db with tags := db.tags ++ [⟨nextTagId db, nm, cat, "#64b5f6", 0⟩] } nm cat =
          some ⟨nextTagId db, nm, cat, "#64b5f6", 0⟩ := by
        unfold get_tag_by_name_and_category
        rw [find?_append_left_none _ _ _ hall]
        simp
      rw [happ]
      unfold tagUsageOpt
      rw [hf]
      simp [addCount]
  · rw [if_neg hxm]
    have hbase : get_tag_by_name_and_category (get_or_create_tag db (Py.pyStrip x) cat).2
        nm cat = get_tag_by_name_and_category db nm cat := by
      cases hfx : get_tag_by_name_and_category db (Py.pyStrip x) cat with
      | some t2 => rw [usageOpt_goc_found db _ cat t2 hfx]
      | none =>
        rw [usageOpt_goc_new db _ cat hfx]
        simp only []
        cases hf0 : get_tag_by_name_and_category db nm cat with
        | some t0 =>
          unfold get_tag_by_name_and_category at hf0 ⊢
          exact find?_append_some _ _ _ t0 hf0
        | none =>
          unfold get_tag_by_name_and_category at hf0 ⊢
          rw [find?_append_left_none _ _ _
            (fun y hy => by simpa using List.find?_eq_none.mp hf0 y hy)]
          simp only [List.find?_cons, List.find?_nil]
          have hcond : (Py.pyStrip x == nm && cat == cat) = false := by
            simp [hxm]
          rw [hcond]
    rw [hbase]
    cases hf0 : get_tag_by_name_and_category db nm cat with
    | none =>
      unfold tagUsageOpt
      rw [hf0]
      rfl
    | some t0 =>
      have ht0mem : t0 ∈ db.tags := List.mem_of_find?_eq_some hf0
      have ht0nm : t0.name = nm := by
        have hp := List.find?_some hf0
        simp only [Bool.and_eq_true, beq_iff_eq] at hp
        exact hp.1
      have htg := goc_tag_name db (Py.pyStrip x) cat
      have htgmem := goc_tag_mem db (Py.pyStrip x) cat
      have ht0mem2 : t0 ∈ (get_or_create_tag db (Py.pyStrip x) cat).2.tags :=
        goc_tag_mono db _ cat t0 ht0mem
      have hnodup := nodup_goc_tag db (Py.pyStrip x) cat h2
      have hne2 : t0.id ≠ (get_or_create_tag db (Py.pyStrip x) cat).1.id := by
        intro hcontra
        have heq := List.inj_on_of_nodup_map hnodup ht0mem2 htgmem hcontra
        rw [heq] at ht0nm
        rw [htg.1] at ht0nm
        exact hxm ht0nm
      simp only [Option.map_some', if_neg hne2]
      unfold tagUsageOpt
      rw [hf0]
      rfl

/-- The exact counting behaviour of the create-path tag loops: the
`(nm, cat)` usage counter grows by one for each non-blank occurrence of
`nm` in the list, unconditionally — re-attachment of an already attached
tag is counted again. -/
theorem attach_count (cat nm : String) (hnm : nm ≠ "") :
    ∀ (L : List String) (db : SDB) (cid : Nat),
      TagsNonneg db → TagIdsNodup db →
      tagUsageOpt (attach_company_tags_create db cid L cat) nm cat =
        addCount (tagUsageOpt db nm cat) (L.countP (fun x => Py.pyStrip x == nm)) := by
  intro L
  induction L with
  | nil =>
    intro db cid h1 h2
    unfold attach_company_tags_create
    simp only [List.foldl_nil, List.countP_nil]
    cases ho : tagUsageOpt db nm cat <;> simp [addCount, ho]
  | cons x L' ih =>
    intro db cid h1 h2
    have hstep : attach_company_tags_create db cid (x :: L') cat =
        attach_company_tags_create (attach_company_tag_create db cid x cat) cid L' cat := rfl
    rw [hstep, List.countP_cons]
    by_cases hx : Py.pyStrip x = ""
    · have hskip : attach_company_tag_create db cid x cat = db := by
        unfold attach_company_tag_create
        rw [if_pos hx]
      have hpred : (Py.pyStrip x == nm) = false := by
        rw [hx]
        exact beq_eq_false_iff_ne.mpr (fun he => hnm he.symm)
      rw [hskip, ih db cid h1 h2, hpred]
      simp
    · rw [ih _ cid (nonneg_attach_company_tag db cid x cat h1)
        (nodup_attach_company_tag db cid x cat h2)]
      rw [attach_one_usage db cid x cat nm hx h1 h2]
      by_cases hxm : Py.pyStrip x = nm
      · rw [if_pos hxm]
        have hp : (Py.pyStrip x == nm) = true := by simp [hxm]
        rw [hp, addCount_succ]
        simp
      · rw [if_neg hxm]
        have hp : (Py.pyStrip x == nm) = false := by simp [hxm]
        rw [hp]
        simp

end Crud

def dbW6 : Crud.SDB := ⟨[], [], [], [], [], []⟩

def pW6 : Crud.CompanyCreate :=
  ⟨"Acme", none, none, none, none, 3, 3, "balanced", "startup", none, none,
   [], [], [], ["AI", "AI"], []⟩

/-- C6 counterexample: a create payload listing the same secteur tag name
twice leaves the single `("AI", "secteur")` tag with usage_count 2 — not
at most 1 — and attaches it to the company twice; the create path
increments unconditionally per occurrence rather than only when the
owner→tag edge did not already exist. -/
theorem C6_usage_count_counterexample :
    ((Crud.create_company dbW6 pW6).1.tags.map
        (fun t => (t.name, t.category, t.usage_count)) = [("AI", "secteur", 2)]) ∧
    ((Crud.create_company dbW6 pW6).1.companies.map Crud.SCompany.tags = [[1, 1]]) := by
  exact ⟨by decide, by decide⟩

/-- C6 (amended): on the create path the usage counter of a tag grows by
exactly one per non-blank occurrence of its name in the payload list —
unconditionally, so a name listed twice for the same owner adds 2; a tag
absent from the store first appears with counter equal to its number of
occurrences. -/
theorem C6_usage_count_amended (cat nm : String) (L : List String) (db : Crud.SDB)
    (cid : Nat) (hnm : nm ≠ "") (h1 : ∀ t ∈ db.tags, 0 ≤ t.usage_count)
    (h2 : (db.tags.map Crud.STag.id).Nodup) :
    Crud.tagUsageOpt (Crud.attach_company_tags_create db cid L cat) nm cat =
      Crud.addCount (Crud.tagUsageOpt db nm cat)
        (L.countP (fun x => Py.pyStrip x == nm)) :=
  Crud.attach_count cat nm hnm L db cid h1 h2

theorem C6_usage_count_witness :
    Crud.tagUsageOpt (Crud.attach_company_tags_create dbW6 1 ["AI", "AI"] "secteur")
        "AI" "secteur" = some 2 := by
  have h := C6_usage_count_amended "secteur" "AI" ["AI", "AI"] dbW6 1
    (by decide) (by decide) (by decide)
  exact h.trans (by decide)

namespace Crud

/-- The canonical person-bound field set copied by
`propagate_founder_profile`. -/
def profileFieldsSynced (f src : SFounder) : Prop :=
  f.name = src.name ∧ f.background_type = src.background_type ∧
  f.education_institution = src.education_institution ∧
  f.education_degree = src.education_degree ∧
  f.education_field = src.education_field ∧
  f.education_year = src.education_year ∧
  f.professional_company = src.professional_company ∧
  f.professional_position = src.professional_position ∧
  f.professional_duration = src.professional_duration ∧
  f.professional_description = src.professional_description

/-- The category-scoped tag sets of `f` and `src` agree (as sets). -/
def tagsSynced (db : SDB) (f src : SFounder) : Prop :=
  (∀ tid, tid ∈ founderEduTagIds db f ↔ tid ∈ founderEduTagIds db src) ∧
  (∀ tid, tid ∈ founderProTagIds db f ↔ tid ∈ founderProTagIds db src)

theorem contains_iff_mem_nat (l : List Nat) (n : Nat) : l.contains n = true ↔ n ∈ l := by
  simp [List.contains, List.elem_iff]

theorem tagCategory_mem_table (db : SDB) (tid : Nat) (c : String)
    (h : tagCategory db tid = some c) :
    ∃ t ∈ db.tags, t.id = tid ∧ t.category = c := by
  unfold tagCategory at h
  cases hf : db.tags.find? (fun t => t.id == tid) with
  | none => rw [hf] at h; exact absurd h (by simp)
  | some t =>
    rw [hf] at h
    have hp := List.find?_some hf
    have hmem := List.mem_of_find?_eq_some hf
    exact ⟨t, hmem, by simpa using hp, by simpa using h⟩

theorem tagCategory_congr (st db : SDB) (h : st.tags = db.tags) (tid : Nat) :
    tagCategory st tid = tagCategory db tid := by
  unfold tagCategory
  rw [h]

theorem founderEduTagIds_congr (st db : SDB) (h : st.tags = db.tags) (f : SFounder) :
    founderEduTagIds st f = founderEduTagIds db f := by
  unfold founderEduTagIds
  exact List.filter_congr (fun x _ => by rw [tagCategory_congr st db h])

theorem founderProTagIds_congr (st db : SDB) (h : st.tags = db.tags) (f : SFounder) :
    founderProTagIds st f = founderProTagIds db f := by
  unfold founderProTagIds
  exact List.filter_congr (fun x _ => by rw [tagCategory_congr st db h])

/-- Membership characterization of the category-filtered tag list of the
overwritten founder row inside `propagate_founder_profile`. -/
theorem propagate_tags_mem (db : SDB) (src : SFounder) (kept : List Nat) (c : String)
    (hc : c = "education" ∨ c = "professional")
    (hkept : ∀ t2 ∈ kept,
        (!(tagCategory db t2 == some "education") &&
         !(tagCategory db t2 == some "professional")) = true) (tid : Nat) :
    (tid ∈ (kept ++ (db.tags.filter (fun t =>
        (founderEduTagIds db src).contains t.id ||
        (founderProTagIds db src).contains t.id)).map STag.id).filter
          (fun t2 => tagCategory db t2 == some c) ↔
     tid ∈ src.tags.filter (fun t2 => tagCategory db t2 == some c)) := by
  constructor
  · intro h
    have h1 := List.mem_filter.mp h
    have hcat : tagCategory db tid = some c := by simpa using h1.2
    rcases List.mem_append.mp h1.1 with hk | hn
    · exfalso
      have hkk := hkept tid hk
      simp only [Bool.and_eq_true, Bool.not_eq_true', beq_eq_false_iff_ne, ne_eq] at hkk
      rcases hc with rfl | rfl
      · exact hkk.1 hcat
      · exact hkk.2 hcat
    · obtain ⟨t, htf, rfl⟩ := List.mem_map.mp hn
      have htf2 := List.mem_filter.mp htf
      have hor := htf2.2
      rw [Bool.or_eq_true] at hor
      apply List.mem_filter.mpr
      refine ⟨?_, by simpa using hcat⟩
      rcases hor with hcon | hcon
      · exact (List.mem_filter.mp ((contains_iff_mem_nat _ _).mp hcon)).1
      · exact (List.mem_filter.mp ((contains_iff_mem_nat _ _).mp hcon)).1
  · intro h
    have h1 := List.mem_filter.mp h
    have hcat : tagCategory db tid = some c := by simpa using h1.2
    obtain ⟨t, htm, htid, htcat⟩ := tagCategory_mem_table db tid c hcat
    apply List.mem_filter.mpr
    refine ⟨List.mem_append.mpr (Or.inr ?_), by simpa using hcat⟩
    apply List.mem_map.mpr
    refine ⟨t, List.mem_filter.mpr ⟨htm, ?_⟩, htid⟩
    rw [Bool.or_eq_true]
    rcases hc with rfl | rfl
    · left
      rw [contains_iff_mem_nat, htid]
      exact List.mem_filter.mpr ⟨h1.1, by simp [hcat]⟩
    · right
      rw [contains_iff_mem_nat, htid]
      exact List.mem_filter.mpr ⟨h1.1, by simp [hcat]⟩

/-- On a truthy person id, `propagate_founder_profile` maps the overwrite
over the founder table. -/
theorem propagate_founders_eq (db : SDB) (src : SFounder) (pid : Nat)
    (hpid : src.person_id = some pid) (hne : pid ≠ 0) :
    (propagate_founder_profile db src).founders =
      db.founders.map (fun f =>
        if f.person_id = some pid ∧ f.id ≠ src.id then
          { f with
            name := src.name
            background_type := src.background_type
            education_institution := src.education_institution
            education_degree := src.education_degree
            education_field := src.education_field
            education_year := src.education_year
            professional_company := src.professional_company
            professional_position := src.professional_position
            professional_duration := src.professional_duration
            professional_description := src.professional_description
            tags := f.tags.filter (fun tid =>
                !(tagCategory db tid == some "education") &&
                !(tagCategory db tid == some "professional")) ++
              (db.tags.filter (fun t =>
                (founderEduTagIds db src).contains t.id ||
                (founderProTagIds db src).contains t.id)).map STag.id }
        else f) := by
  simp only [propagate_founder_profile, hpid]
  rw [if_neg hne]
  rfl

theorem propagate_persons_eq (db : SDB) (src : SFounder) (pid : Nat)
    (hpid : src.person_id = some pid) (hne : pid ≠ 0) :
    (propagate_founder_profile db src).persons =
      db.persons.map (fun p => if p.id = pid then { p with name := src.name } else p) := by
  simp only [propagate_founder_profile, hpid]
  rw [if_neg hne]

/-- Full postcondition of a truthy propagation: every other founder row
with the same person id carries the canonical fields and the
education/professional tag sets of `src`, and the person row is renamed. -/
theorem propagate_spec (db : SDB) (src : SFounder) (pid : Nat)
    (hpid : src.person_id = some pid) (hne : pid ≠ 0) :
    (∀ f ∈ (propagate_founder_profile db src).founders,
       f.person_id = some pid → f.id ≠ src.id →
       profileFieldsSynced f src ∧
       tagsSynced (propagate_founder_profile db src) f src) ∧
    (∀ q ∈ (propagate_founder_profile db src).persons,
       q.id = pid → q.name = src.name) := by
  constructor
  · intro f hf hfp hfid
    rw [propagate_founders_eq db src pid hpid hne] at hf
    obtain ⟨f0, hf0, rfl⟩ := List.mem_map.mp hf
    by_cases hc : f0.person_id = some pid ∧ f0.id ≠ src.id
    · rw [if_pos hc] at hfp hfid ⊢
      refine ⟨⟨rfl, rfl, rfl, rfl, rfl, rfl, rfl, rfl, rfl, rfl⟩, ?_, ?_⟩
      · intro tid
        simp only [founderEduTagIds_congr _ _ (tags_propagate db src)]
        have := propagate_tags_mem db src
          (f0.tags.filter (fun tid =>
            !(tagCategory db tid == some "education") &&
            !(tagCategory db tid == some "professional")))
          "education" (Or.inl rfl) (fun t2 ht2 => (List.mem_filter.mp ht2).2) tid
        exact this
      · intro tid
        simp only [founderProTagIds_congr _ _ (tags_propagate db src)]
        have := propagate_tags_mem db src
          (f0.tags.filter (fun tid =>
            !(tagCategory db tid == some "education") &&
            !(tagCategory db tid == some "professional")))
          "professional" (Or.inr rfl) (fun t2 ht2 => (List.mem_filter.mp ht2).2) tid
        exact this
    · rw [if_neg hc] at hfp hfid
      exact absurd ⟨hfp, hfid⟩ hc
  · intro q hq hqid
    rw [propagate_persons_eq db src pid hpid hne] at hq
    obtain ⟨q0, hq0, rfl⟩ := List.mem_map.mp hq
    by_cases hc : q0.id = pid
    · rw [if_pos hc] at hqid ⊢
    · rw [if_neg hc] at hqid ⊢
      exact absurd hqid hc

end Crud

namespace Crud

theorem founders_update_usage (db : SDB) (tid : Nat) (inc : Int) :
    (update_tag_usage_count db tid inc).founders = db.founders := rfl

theorem persons_update_usage (db : SDB) (tid : Nat) (inc : Int) :
    (update_tag_usage_count db tid inc).persons = db.persons := rfl

theorem founders_goc_tag (db : SDB) (n c : String) :
    (get_or_create_tag db n c).2.founders = db.founders := by
  unfold get_or_create_tag
  cases h : get_tag_by_name_and_category db n c
  · rfl
  · rfl

theorem persons_goc_tag (db : SDB) (n c : String) :
    (get_or_create_tag db n c).2.persons = db.persons := by
  unfold get_or_create_tag
  cases h : get_tag_by_name_and_category db n c
  · rfl
  · rfl

theorem founders_attach_founder_tag (a : SDB × List Nat) (raw cat : String) :
    (attach_founder_tag a raw cat).1.founders = a.1.founders := by
  simp only [attach_founder_tag]
  split
  · rfl
  · show (update_tag_usage_count (get_or_create_tag a.1 (Py.pyStrip raw) cat).2
        (get_or_create_tag a.1 (Py.pyStrip raw) cat).1.id 1).founders = a.1.founders
    rw [founders_update_usage, founders_goc_tag]

theorem persons_attach_founder_tag (a : SDB × List Nat) (raw cat : String) :
    (attach_founder_tag a raw cat).1.persons = a.1.persons := by
  simp only [attach_founder_tag]
  split
  · rfl
  · show (update_tag_usage_count (get_or_create_tag a.1 (Py.pyStrip raw) cat).2
        (get_or_create_tag a.1 (Py.pyStrip raw) cat).1.id 1).persons = a.1.persons
    rw [persons_update_usage, persons_goc_tag]

theorem founders_attach_founder_tags (db : SDB) (ids : List Nat) (names : List String)
    (cat : String) : (attach_founder_tags db ids names cat).1.founders = db.founders := by
  unfold attach_founder_tags
  exact foldl_preserves (fun a : SDB × List Nat => a.1.founders = db.founders)
    (fun a nm => attach_founder_tag a nm cat)
    (fun a nm ha => (founders_attach_founder_tag a nm cat).trans ha) names (db, ids) rfl

theorem persons_attach_founder_tags (db : SDB) (ids : List Nat) (names : List String)
    (cat : String) : (attach_founder_tags db ids names cat).1.persons = db.persons := by
  unfold attach_founder_tags
  exact foldl_preserves (fun a : SDB × List Nat => a.1.persons = db.persons)
    (fun a nm => attach_founder_tag a nm cat)
    (fun a nm ha => (persons_attach_founder_tag a nm cat).trans ha) names (db, ids) rfl

theorem founders_gocp (db : SDB) (fd : FounderCreate) :
    (get_or_create_person db fd).2.founders = db.founders := by
  simp only [get_or_create_person]
  repeat' first
    | rfl
    | split

/-- The tag-fold portion of `write_founder_record` (the state and the
collected tag-id list after both category loops). -/
def founderTagState (db : SDB) (fd : FounderCreate) : SDB × List Nat :=
  let rp := get_or_create_person db fd
  let re := attach_founder_tags rp.2 [] fd.education_tags "education"
  attach_founder_tags re.1 re.2 fd.professional_tags "professional"

/-- The founder row inserted by `write_founder_record`. -/
def newFounderRow (db : SDB) (fd : FounderCreate) (cid : Nat) : SFounder :=
  build_founder fd (nextFounderId (get_or_create_person db fd).2) cid
    ((get_or_create_person db fd).1.map SPerson.id) (founderTagState db fd).2

/-- The state of `write_founder_record` just before propagation. -/
def founderInserted (db : SDB) (fd : FounderCreate) (cid : Nat) : SDB :=
  { (founderTagState db fd).1 with
    founders := (founderTagState db fd).1.founders ++ [newFounderRow db fd cid] }

theorem write_founder_record_eq (db : SDB) (fd : FounderCreate) (cid : Nat) :
    write_founder_record db fd cid =
      ((match (newFounderRow db fd cid).person_id with
        | some p =>
          if p = 0 then founderInserted db fd cid
          else propagate_founder_profile (founderInserted db fd cid)
            (newFounderRow db fd cid)
        | none => founderInserted db fd cid),
       nextFounderId (get_or_create_person db fd).2) := rfl

theorem founderInserted_founders (db : SDB) (fd : FounderCreate) (cid : Nat) :
    (founderInserted db fd cid).founders =
      (founderTagState db fd).1.founders ++ [newFounderRow db fd cid] := rfl

theorem founderTagState_founders (db : SDB) (fd : FounderCreate) :
    (founderTagState db fd).1.founders = db.founders := by
  simp only [founderTagState]
  rw [founders_attach_founder_tags, founders_attach_founder_tags, founders_gocp]

theorem next_founder_gocp (db : SDB) (fd : FounderCreate) :
    nextFounderId (get_or_create_person db fd).2 = nextFounderId db := by
  unfold nextFounderId
  rw [founders_gocp]

theorem founder_id_lt_next (db : SDB) (f : SFounder) (hf : f ∈ db.founders) :
    f.id < nextFounderId db := by
  have h := le_foldr_max (db.founders.map SFounder.id) f.id (List.mem_map_of_mem _ hf)
  unfold nextFounderId nextId
  omega

/-- The freshly allocated founder id identifies the inserted row. -/
theorem mem_founderInserted (db : SDB) (fd : FounderCreate) (cid : Nat) (f : SFounder)
    (hf : f ∈ (founderInserted db fd cid).founders)
    (hid : f.id = nextFounderId (get_or_create_person db fd).2) :
    f = newFounderRow db fd cid := by
  rw [founderInserted_founders] at hf
  rcases List.mem_append.mp hf with hl | hr
  · exfalso
    rw [founderTagState_founders] at hl
    have hlt := founder_id_lt_next db f hl
    rw [next_founder_gocp] at hid
    omega
  · simpa using hr

/-- Propagation keeps row identities: a member carrying the source's own
id is the source row, provided the id was unique before. -/
theorem propagate_self_mem (db : SDB) (src f : SFounder)
    (hf : f ∈ (propagate_founder_profile db src).founders)
    (hfresh : ∀ g0 ∈ db.founders, g0.id = src.id → g0 = src)
    (hid : f.id = src.id) : f = src := by
  cases hps : src.person_id with
  | none =>
    simp only [propagate_founder_profile, hps] at hf
    exact hfresh f hf hid
  | some pid =>
    by_cases h0 : pid = 0
    · simp only [propagate_founder_profile, hps] at hf
      rw [if_pos h0] at hf
      exact hfresh f hf hid
    · rw [propagate_founders_eq db src pid hps h0] at hf
      obtain ⟨f0, hf0, rfl⟩ := List.mem_map.mp hf
      by_cases hc : f0.person_id = some pid ∧ f0.id ≠ src.id
      · rw [if_pos hc] at hid ⊢
        exact absurd hid hc.2
      · rw [if_neg hc] at hid ⊢
        exact hfresh f0 hf0 hid

end Crud

/-- C1 (amended): propagation holds for *founder* role writes in the
SQLAlchemy layer.  After `write_founder_record`, if the written row
(identified by the returned fresh id) carries a truthy person id, then
every other founder row sharing that person id has the canonical field
set (name, background_type, all education_*, all professional_*) equal to
the written row's values, its education- and professional-category tag
sets equal (as sets) to the written row's, and every person row with that
id carries the written name.  The original claim additionally covered
employee role writes, which the live Neo4j service layer never
propagates — see the counterexample. -/
theorem C1_propagation_corrected (db : Crud.SDB) (fd : Crud.FounderCreate) (cid : Nat)
    (src : Crud.SFounder) (pid : Nat)
    (hsrc : src ∈ (Crud.write_founder_record db fd cid).1.founders)
    (hsid : src.id = (Crud.write_founder_record db fd cid).2)
    (hp : src.person_id = some pid) (hne : pid ≠ 0) :
    (∀ f ∈ (Crud.write_founder_record db fd cid).1.founders,
       f.person_id = some pid → f.id ≠ src.id →
       Crud.profileFieldsSynced f src ∧
       Crud.tagsSynced (Crud.write_founder_record db fd cid).1 f src) ∧
    (∀ q ∈ (Crud.write_founder_record db fd cid).1.persons,
       q.id = pid → q.name = src.name) := by
  have hsid2 : src.id = Crud.nextFounderId (Crud.get_or_create_person db fd).2 := hsid
  cases hnp : (Crud.newFounderRow db fd cid).person_id with
  | none =>
    exfalso
    have hfst : (Crud.write_founder_record db fd cid).1 = Crud.founderInserted db fd cid := by
      rw [Crud.write_founder_record_eq, hnp]
    rw [hfst] at hsrc
    have hEq := Crud.mem_founderInserted db fd cid src hsrc hsid2
    rw [hEq, hnp] at hp
    exact Option.noConfusion hp
  | some p =>
    by_cases h0 : p = 0
    · exfalso
      subst h0
      have hfst : (Crud.write_founder_record db fd cid).1 =
          Crud.founderInserted db fd cid := by
        rw [Crud.write_founder_record_eq, hnp]
        rfl
      rw [hfst] at hsrc
      have hEq := Crud.mem_founderInserted db fd cid src hsrc hsid2
      rw [hEq, hnp] at hp
      exact hne (Option.some.inj hp).symm
    · have hfst : (Crud.write_founder_record db fd cid).1 =
          Crud.propagate_founder_profile (Crud.founderInserted db fd cid)
            (Crud.newFounderRow db fd cid) := by
        rw [Crud.write_founder_record_eq, hnp]
        dsimp only
        rw [if_neg h0]
      rw [hfst] at hsrc ⊢
      have hfresh : ∀ g0 ∈ (Crud.founderInserted db fd cid).founders,
          g0.id = (Crud.newFounderRow db fd cid).id → g0 = Crud.newFounderRow db fd cid :=
        fun g0 hg0 hgid => Crud.mem_founderInserted db fd cid g0 hg0 hgid
      have hEq : src = Crud.newFounderRow db fd cid :=
        Crud.propagate_self_mem _ _ src hsrc hfresh hsid2
      subst hEq
      exact Crud.propagate_spec (Crud.founderInserted db fd cid)
        (Crud.newFounderRow db fd cid) pid hp hne

def dbW1 : Crud.SDB :=
  ⟨[], [⟨1, "Jane", none, none, none, none, none, none, none, some "OldCo", none, none,
        none, 1, some 7, []⟩],
   [⟨7, "Jane"⟩], [], [], []⟩

def fdW1 : Crud.FounderCreate :=
  ⟨some 7, "Jane", none, none, none, some ⟨"NewCo", none, none, none⟩, [], [], none⟩

def srcW1 : Crud.SFounder :=
  ⟨2, "Jane", none, none, none, none, none, none, none, some "NewCo", none, none, none,
   2, some 7, []⟩

def othW1 : Crud.SFounder :=
  ⟨1, "Jane", none, none, none, none, none, none, none, some "NewCo", none, none, none,
   1, some 7, []⟩

theorem C1_propagation_corrected_witness :
    Crud.profileFieldsSynced othW1 srcW1 ∧
    (Crud.SPerson.mk 7 "Jane").name = srcW1.name := by
  have h := C1_propagation_corrected dbW1 fdW1 2 srcW1 7 (by decide) (by decide)
    (by decide) (by decide)
  exact ⟨(h.1 othW1 (by decide) (by decide) (by decide)).1,
    h.2 ⟨7, "Jane"⟩ (by decide) (by decide)⟩

def empA : Services.EmployeeCreate :=
  ⟨none, "Jane", none, none, none, none, none, none, some ⟨"OldCo", none, none, none⟩,
   [], []⟩

def empB : Services.EmployeeCreate :=
  ⟨some 1, "Jane", none, none, none, none, none, none, some ⟨"NewCo", none, none, none⟩,
   [], []⟩

def pCA : Services.NCompanyCreate :=
  ⟨"Aco", none, none, none, none, 3, 3, "balanced", "startup", none, none, [], [], [],
   [empA]⟩

def pCB : Services.NCompanyCreate :=
  ⟨"Bco", none, none, none, none, 3, 3, "balanced", "startup", none, none, [], [], [],
   [empB]⟩

/-- C1 counterexample: in the live Neo4j service layer an employee role
write never propagates.  Creating company 1 with Jane (person 1,
professional_company "OldCo"), then company 2 whose employee payload
names the same person id with "NewCo", leaves company 1's role edge at
"OldCo": the second write did not update the other role record sharing
the non-null person id. -/
theorem C1_propagation_counterexample :
    (Services.create_company (Services.create_company Services.emptyState pCA).1
        pCB).1.employeeOf.map
        (fun e => (e.person, e.company, e.props.professional_company)) =
      [(1, 1, some "OldCo"), (1, 2, some "NewCo")] := by decide
